import Mathlib

/-!
Verification development for the profile-aggregation engine and Hurst regime
classifier of the DataAnalyticsAndVisualization repository.

The Python sources are shallowly embedded over exact rational arithmetic (`ℚ`):
`round(x, 3)` becomes decimal half-to-even rounding, `math.floor`/`math.ceil`
become `⌊·⌋`/`⌈·⌉`, `np.arange(lo, hi, step)` becomes an explicit list of
`⌈(hi-lo)/step⌉` equally spaced rationals, and Python dictionaries become
association lists in insertion order.  Python floats are modelled as exact
rationals; in particular `int(1 / granularity)` is modelled as `⌊1/g⌋`, which
agrees with the float computation for every granularity in the accepted set
(`1/g` is exactly representable there).  `np.argsort` (ascending, stable for
the small arrays involved) is modelled as a stable sort of the enumerated list
by value and then index.

Because Mathlib's `Rat.add`/`Rat.mul`/`Rat.inv`/`Rat.sub` are `irreducible`,
the embedding routes all rational arithmetic through definitionally
transparent clones (`qadd`, `qmul`, ...) built on `mkRat`, each accompanied by
a bridging lemma equating it with the standard operation.  This keeps every
embedded function evaluable by `decide` on concrete inputs while proofs are
carried out against the ordinary arithmetic operations.
-/

set_option maxRecDepth 8000

namespace DataAnalytics

/-! ### Transparent rational arithmetic -/

/-- Transparent clone of rational addition. -/
def qadd (a b : ℚ) : ℚ := mkRat (a.num * b.den + b.num * a.den) (a.den * b.den)

/-- Transparent clone of rational multiplication. -/
def qmul (a b : ℚ) : ℚ := mkRat (a.num * b.num) (a.den * b.den)

/-- Transparent clone of rational inverse. -/
def qinv (a : ℚ) : ℚ := Rat.divInt a.den a.num

/-- Transparent clone of rational subtraction. -/
def qsub (a b : ℚ) : ℚ := qadd a (-b)

/-- Transparent clone of rational division. -/
def qdiv (a b : ℚ) : ℚ := qmul a (qinv b)

/-- Transparent embedding of a natural number into `ℚ`. -/
def qofNat (n : ℕ) : ℚ := mkRat n 1

/-- Transparent embedding of an integer into `ℚ`. -/
def qofInt (z : ℤ) : ℚ := mkRat z 1

theorem qadd_eq (a b : ℚ) : qadd a b = a + b := by
  rw [qadd, Rat.mkRat_eq_div]
  push_cast
  conv_rhs => rw [← Rat.num_div_den a, ← Rat.num_div_den b]
  rw [div_add_div _ _ (by positivity : ((a.den : ℚ)) ≠ 0)
    (by positivity : ((b.den : ℚ)) ≠ 0)]
  ring_nf

theorem qmul_eq (a b : ℚ) : qmul a b = a * b := by
  rw [qmul, Rat.mkRat_eq_div]
  push_cast
  conv_rhs => rw [← Rat.num_div_den a, ← Rat.num_div_den b]
  rw [div_mul_div_comm]

theorem qinv_eq (a : ℚ) : qinv a = a⁻¹ := by
  rw [qinv, ← Rat.inv_def]
  rfl

theorem qsub_eq (a b : ℚ) : qsub a b = a - b := by
  rw [qsub, qadd_eq, sub_eq_add_neg]

theorem qdiv_eq (a b : ℚ) : qdiv a b = a / b := by
  rw [qdiv, qmul_eq, qinv_eq, div_eq_mul_inv]

theorem qofNat_eq (n : ℕ) : qofNat n = (n : ℚ) := by
  rw [qofNat, Rat.mkRat_eq_div]; simp

theorem qofInt_eq (z : ℤ) : qofInt z = (z : ℚ) := by
  rw [qofInt, Rat.mkRat_eq_div]; simp

/-- Transparent list sum over `ℚ`. -/
def qsum (l : List ℚ) : ℚ := l.foldr qadd 0

theorem qsum_eq (l : List ℚ) : qsum l = l.sum := by
  induction l with
  | nil => rfl
  | cons x xs ih => rw [qsum, List.foldr_cons, qadd_eq, List.sum_cons, ← qsum, ih]

/-- Transparent maximum of two rationals. -/
def qmax (a b : ℚ) : ℚ := if a ≤ b then b else a

/-- Transparent minimum of two rationals. -/
def qmin (a b : ℚ) : ℚ := if a ≤ b then a else b

theorem qmax_eq (a b : ℚ) : qmax a b = max a b := by
  rw [qmax, max_def]

theorem qmin_eq (a b : ℚ) : qmin a b = min a b := by
  rw [qmin, min_def]

/-! ### Floor, ceiling and Python `round(·, 3)` -/

/-- Transparent floor of a rational. -/
def floorQ (q : ℚ) : ℤ := q.num / q.den

/-- Transparent ceiling of a rational. -/
def ceilQ (q : ℚ) : ℤ := -floorQ (-q)

theorem floorQ_eq (q : ℚ) : floorQ q = ⌊q⌋ := Rat.floor_def.symm

theorem ceilQ_eq (q : ℚ) : ceilQ q = ⌈q⌉ := by
  rw [ceilQ, floorQ_eq, Int.floor_neg, neg_neg]

/-- Python's banker's rounding of a rational to the nearest integer:
round half to even, as used by `round(x, n)` on exact decimal inputs. -/
def rnd (x : ℚ) : ℤ :=
  let f := floorQ x
  let r := qsub x (qofInt f)
  if r < mkRat 1 2 then f
  else if mkRat 1 2 < r then f + 1
  else if f % 2 = 0 then f else f + 1

theorem rnd_intCast (z : ℤ) : rnd ((z : ℚ)) = z := by
  rw [rnd]
  simp only [qsub_eq, qofInt_eq, floorQ_eq, Int.floor_intCast, sub_self,
    Rat.mkRat_eq_div]
  norm_num

theorem floorQ_le_rnd (x : ℚ) : floorQ x ≤ rnd x := by
  rw [rnd]
  split
  · exact le_refl _
  · split
    · omega
    · split <;> omega

theorem rnd_le_ceilQ (x : ℚ) : rnd x ≤ ceilQ x := by
  rw [rnd, ceilQ_eq, floorQ_eq]
  simp only [qsub_eq, qofInt_eq, Rat.mkRat_eq_div]
  have hfc : ⌊x⌋ ≤ ⌈x⌉ := Int.floor_le_ceil x
  have hlt : ∀ h : ((1 : ℚ) / 2 : ℚ) ≤ x - ⌊x⌋, ⌊x⌋ + 1 ≤ ⌈x⌉ := by
    intro h
    have hx : (⌊x⌋ : ℚ) < x := by
      have : (0 : ℚ) < 1 / 2 := by norm_num
      linarith
    exact Int.add_one_le_iff.mpr (Int.lt_ceil.mpr hx)
  split
  · exact hfc
  · next h1 =>
    split
    · next h2 => exact hlt (le_of_lt h2)
    · next h2 =>
      have heq : x - (⌊x⌋ : ℚ) = 1 / 2 := le_antisymm (not_lt.mp h2) (not_lt.mp h1)
      split
      · exact hfc
      · exact hlt (le_of_eq heq.symm)

theorem rnd_mono_floor (x y : ℚ) (h : x ≤ y) : ⌊x⌋ ≤ rnd y :=
  le_trans (Int.floor_mono h) (by rw [← floorQ_eq]; exact floorQ_le_rnd y)

theorem rnd_mono_ceil (x y : ℚ) (h : x ≤ y) : rnd x ≤ ⌈y⌉ :=
  le_trans (rnd_le_ceilQ x) (by rw [ceilQ_eq]; exact Int.ceil_mono h)

/-- Python `round(x, 3)` on an exact rational: round `x·1000` half to even
and scale back. -/
def round3 (x : ℚ) : ℚ := mkRat (rnd (qmul x (qofNat 1000))) 1000

/-- Python `math.floor(x * 1000) / 1000` on an exact rational. -/
def ifloor3 (x : ℚ) : ℚ := mkRat (floorQ (qmul x (qofNat 1000))) 1000

/-- Python `math.ceil(x * 1000) / 1000` on an exact rational. -/
def iceil3 (x : ℚ) : ℚ := mkRat (ceilQ (qmul x (qofNat 1000))) 1000

theorem round3_eq (x : ℚ) : round3 x = ((rnd (x * 1000) : ℤ) : ℚ) / 1000 := by
  rw [round3, qmul_eq, qofNat_eq, Rat.mkRat_eq_div]
  norm_num

theorem ifloor3_eq (x : ℚ) : ifloor3 x = ((⌊x * 1000⌋ : ℤ) : ℚ) / 1000 := by
  rw [ifloor3, qmul_eq, qofNat_eq, floorQ_eq, Rat.mkRat_eq_div]
  norm_num

theorem iceil3_eq (x : ℚ) : iceil3 x = ((⌈x * 1000⌉ : ℤ) : ℚ) / 1000 := by
  rw [iceil3, qmul_eq, qofNat_eq, ceilQ_eq, Rat.mkRat_eq_div]
  norm_num

/-- A rational is a "3-decimal value" if scaling by 1000 lands on an integer. -/
def IsMilli (x : ℚ) : Prop := ∃ z : ℤ, x * 1000 = (z : ℚ)

theorem round3_of_milli {x : ℚ} (h : IsMilli x) : round3 x = x := by
  obtain ⟨z, hz⟩ := h
  rw [round3_eq, hz, rnd_intCast, ← hz]
  field_simp

theorem round3_milli (x : ℚ) : IsMilli (round3 x) := by
  refine ⟨rnd (x * 1000), ?_⟩
  rw [round3_eq]
  norm_num

theorem milli_add {x y : ℚ} (hx : IsMilli x) (hy : IsMilli y) : IsMilli (x + y) := by
  obtain ⟨a, ha⟩ := hx
  obtain ⟨b, hb⟩ := hy
  exact ⟨a + b, by push_cast; rw [add_mul, ha, hb]⟩

theorem milli_natmul {x : ℚ} (hx : IsMilli x) (n : ℕ) : IsMilli ((n : ℚ) * x) := by
  obtain ⟨a, ha⟩ := hx
  exact ⟨n * a, by push_cast; rw [mul_assoc, ha]⟩

theorem ifloor3_milli (x : ℚ) : IsMilli (ifloor3 x) := by
  refine ⟨⌊x * 1000⌋, ?_⟩
  rw [ifloor3_eq]
  norm_num

theorem iceil3_milli (x : ℚ) : IsMilli (iceil3 x) := by
  refine ⟨⌈x * 1000⌉, ?_⟩
  rw [iceil3_eq]
  norm_num

theorem ifloor3_le (x : ℚ) : ifloor3 x ≤ x := by
  rw [ifloor3_eq]
  rw [div_le_iff (by norm_num : (0:ℚ) < 1000)]
  exact Int.floor_le (x * 1000)

theorem le_iceil3 (x : ℚ) : x ≤ iceil3 x := by
  rw [iceil3_eq]
  rw [le_div_iff (by norm_num : (0:ℚ) < 1000)]
  exact Int.le_ceil (x * 1000)

theorem ifloor3_le_round3 {x y : ℚ} (h : x ≤ y) : ifloor3 x ≤ round3 y := by
  rw [ifloor3_eq, round3_eq]
  gcongr
  exact rnd_mono_floor (x * 1000) (y * 1000) (by nlinarith)

theorem round3_le_iceil3 {x y : ℚ} (h : x ≤ y) : round3 x ≤ iceil3 y := by
  rw [iceil3_eq, round3_eq]
  gcongr
  exact rnd_mono_ceil (x * 1000) (y * 1000) (by nlinarith)

/-! ### `np.arange` over exact rationals -/

/-- Embedding of `np.arange(lo, hi, step)` for a positive step: the list
`lo, lo+step, ...` of length `⌈(hi-lo)/step⌉`. -/
def arange (lo hi step : ℚ) : List ℚ :=
  if 0 < step then
    (List.range (Int.toNat (ceilQ (qdiv (qsub hi lo) step)))).map
      (fun i => qadd lo (qmul (qofNat i) step))
  else []

theorem arange_eq (lo hi step : ℚ) (hs : 0 < step) :
    arange lo hi step =
      (List.range (Int.toNat ⌈(hi - lo)/step⌉)).map (fun i : ℕ => lo + (i : ℚ) * step) := by
  rw [arange, if_pos hs]
  simp only [qadd_eq, qmul_eq, qofNat_eq, qdiv_eq, qsub_eq, ceilQ_eq]

theorem mem_arange {lo hi step : ℚ} (hs : 0 < step) (p : ℚ) :
    p ∈ arange lo hi step ↔ ∃ k : ℕ, p = lo + (k : ℚ) * step ∧ p < hi := by
  rw [arange_eq _ _ _ hs]
  simp only [List.mem_map, List.mem_range]
  constructor
  · rintro ⟨i, hilt, rfl⟩
    refine ⟨i, rfl, ?_⟩
    have h1 : (i : ℤ) < ⌈(hi - lo)/step⌉ := Int.lt_toNat.mp hilt
    have h2 : ((i : ℤ) : ℚ) < (hi - lo)/step := Int.lt_ceil.mp h1
    rw [lt_div_iff hs] at h2
    push_cast at h2
    linarith
  · rintro ⟨k, rfl, hlt⟩
    refine ⟨k, ?_, rfl⟩
    rw [Int.lt_toNat, Int.lt_ceil, lt_div_iff hs]
    push_cast
    linarith

theorem arange_nodup (lo hi step : ℚ) (hs : 0 < step) : (arange lo hi step).Nodup := by
  rw [arange_eq _ _ _ hs]
  refine List.Nodup.map_on ?_ (List.nodup_range _)
  intro x _ y _ hxy
  have hxy' : (x : ℚ) * step = (y : ℚ) * step := by linarith
  have := mul_right_cancel₀ (ne_of_gt hs) hxy'
  exact_mod_cast this

theorem arange_ne_nil {lo hi step : ℚ} (hs : 0 < step) (hlt : lo < hi) :
    arange lo hi step ≠ [] := by
  rw [arange_eq _ _ _ hs]
  have hpos : (0 : ℤ) < ⌈(hi - lo)/step⌉ :=
    Int.lt_ceil.mpr (by push_cast; exact div_pos (by linarith) hs)
  have hlen : 0 < (Int.toNat ⌈(hi - lo)/step⌉) := Int.lt_toNat.mpr hpos
  have hl : 0 < ((List.range (Int.toNat ⌈(hi - lo)/step⌉)).map
      (fun i : ℕ => lo + (i : ℚ) * step)).length := by simpa using hlen
  exact List.length_pos.mp hl

theorem arange_count {lo hi step : ℚ} (hs : 0 < step) (p : ℚ) :
    (arange lo hi step).count p = if p ∈ arange lo hi step then 1 else 0 := by
  split
  · next hmem =>
    have h1 := (List.nodup_iff_count_le_one.mp (arange_nodup lo hi step hs)) p
    have h2 := List.count_pos_iff.mpr hmem
    omega
  · next hmem => exact List.count_eq_zero_of_not_mem hmem

/-! ### Python dictionaries as association lists -/

/-- Keys of an association list, in insertion order. -/
def dkeys {A : Type} (d : List (ℚ × A)) : List ℚ := d.map Prod.fst

/-- Lookup of the first binding of a key. -/
def dlookup {A : Type} : List (ℚ × A) → ℚ → Option A
  | [], _ => none
  | kv :: rest, k => if kv.1 = k then some kv.2 else dlookup rest k

/-- Lookup with default 0, for numeric dictionaries. -/
def dlookupD (d : List (ℚ × ℚ)) (k : ℚ) : ℚ := (dlookup d k).getD 0

/-- Python's `if k in dict: dict[k] = f(dict[k])`: update the first binding of
an existing key, leave the dictionary unchanged when the key is absent. -/
def updFirst {A : Type} : List (ℚ × A) → ℚ → (A → A) → List (ℚ × A)
  | [], _, _ => []
  | kv :: rest, k, f =>
    if kv.1 = k then (kv.1, f kv.2) :: rest else kv :: updFirst rest k f

/-- Python's `dict[k] = dict.get(k, 0) + v`: add to an existing binding or
append a fresh one. -/
def bucketAdd : List (ℚ × ℚ) → ℚ → ℚ → List (ℚ × ℚ)
  | [], k, v => [(k, v)]
  | kv :: rest, k, v =>
    if kv.1 = k then (kv.1, qadd kv.2 v) :: rest else kv :: bucketAdd rest k v

theorem dkeys_updFirst {A : Type} (d : List (ℚ × A)) (k : ℚ) (f : A → A) :
    dkeys (updFirst d k f) = dkeys d := by
  induction d with
  | nil => rfl
  | cons kv rest ih =>
    rw [updFirst]
    split
    · rfl
    · simpa [dkeys] using ih

theorem mem_dkeys_cons {A : Type} (kv : ℚ × A) (rest : List (ℚ × A)) (k : ℚ) :
    k ∈ dkeys (kv :: rest) ↔ k = kv.1 ∨ k ∈ dkeys rest := List.mem_cons

theorem dlookup_eq_none {A : Type} (d : List (ℚ × A)) (k : ℚ) :
    dlookup d k = none ↔ k ∉ dkeys d := by
  induction d with
  | nil => simp [dlookup, dkeys]
  | cons kv rest ih =>
    rw [dlookup]
    by_cases h1 : kv.1 = k
    · rw [if_pos h1]
      constructor
      · intro h; exact absurd h (by simp)
      · intro hmem
        exact absurd ((mem_dkeys_cons kv rest k).mpr (Or.inl h1.symm)) hmem
    · rw [if_neg h1, ih]
      constructor
      · intro h hc
        rcases (mem_dkeys_cons kv rest k).mp hc with h2 | h2
        · exact h1 h2.symm
        · exact h h2
      · intro h hc
        exact h ((mem_dkeys_cons kv rest k).mpr (Or.inr hc))

theorem dlookup_updFirst {A : Type} (d : List (ℚ × A)) (k p : ℚ) (f : A → A) :
    dlookup (updFirst d k f) p =
      if p = k then (dlookup d p).map f else dlookup d p := by
  induction d with
  | nil => simp [updFirst, dlookup]
  | cons kv rest ih =>
    rw [updFirst]
    by_cases h1 : kv.1 = k
    · rw [if_pos h1]
      by_cases h2 : p = k
      · subst h2
        rw [dlookup, dlookup, if_pos h1, if_pos h1]
        simp
      · have h3 : kv.1 ≠ p := fun hc => h2 (hc ▸ h1)
        rw [dlookup, dlookup, if_neg h3, if_neg h3, if_neg h2]
    · rw [if_neg h1]
      by_cases h3 : kv.1 = p
      · have h2 : p ≠ k := fun hc => h1 (hc ▸ h3)
        rw [dlookup, dlookup, if_pos h3, if_pos h3, if_neg h2]
      · rw [dlookup, dlookup, if_neg h3, if_neg h3, ih]

theorem sum_updFirst_qadd (d : List (ℚ × ℚ)) (k v : ℚ) :
    ((updFirst d k (fun x => qadd x v)).map Prod.snd).sum =
      ((d.map Prod.snd).sum + if k ∈ dkeys d then v else 0) := by
  induction d with
  | nil => simp [updFirst, dkeys]
  | cons kv rest ih =>
    rw [updFirst]
    by_cases h1 : kv.1 = k
    · rw [if_pos h1]
      have hk : k ∈ dkeys (kv :: rest) := by simp [dkeys, h1]
      rw [if_pos hk]
      simp only [List.map_cons, List.sum_cons, qadd_eq]
      ring
    · rw [if_neg h1]
      simp only [List.map_cons, List.sum_cons, ih]
      have hmem : (k ∈ dkeys (kv :: rest)) ↔ (k ∈ dkeys rest) := by
        simp only [dkeys, List.map_cons, List.mem_cons]
        constructor
        · rintro (h | h)
          · exact absurd h.symm h1
          · exact h
        · exact fun h => Or.inr h
      by_cases h2 : k ∈ dkeys rest
      · rw [if_pos h2, if_pos (hmem.mpr h2)]
        ring
      · rw [if_neg h2, if_neg (fun hc => h2 (hmem.mp hc))]
        ring

theorem nonneg_updFirst_qadd (d : List (ℚ × ℚ)) (k v : ℚ) (hv : 0 ≤ v)
    (hd : ∀ kv ∈ d, 0 ≤ kv.2) : ∀ kv ∈ updFirst d k (fun x => qadd x v), 0 ≤ kv.2 := by
  induction d with
  | nil => simp [updFirst]
  | cons kv0 rest ih =>
    rw [updFirst]
    split
    · intro kv hkv
      rcases List.mem_cons.mp hkv with h | h
      · rw [h]
        simp only [qadd_eq]
        have := hd kv0 (by simp)
        positivity
      · exact hd kv (List.mem_cons_of_mem _ h)
    · intro kv hkv
      rcases List.mem_cons.mp hkv with h | h
      · rw [h]; exact hd kv0 (by simp)
      · exact ih (fun x hx => hd x (List.mem_cons_of_mem _ hx)) kv h

theorem dkeys_bucketAdd_subset (d : List (ℚ × ℚ)) (k v : ℚ) :
    ∀ x ∈ dkeys (bucketAdd d k v), x ∈ dkeys d ∨ x = k := by
  induction d with
  | nil =>
    intro x hx
    exact Or.inr (List.mem_singleton.mp hx)
  | cons kv rest ih =>
    intro x hx
    rw [bucketAdd] at hx
    split at hx
    · rcases (mem_dkeys_cons _ rest x).mp hx with h | h
      · exact Or.inl ((mem_dkeys_cons kv rest x).mpr (Or.inl h))
      · exact Or.inl ((mem_dkeys_cons kv rest x).mpr (Or.inr h))
    · rcases (mem_dkeys_cons kv _ x).mp hx with h | h
      · exact Or.inl ((mem_dkeys_cons kv rest x).mpr (Or.inl h))
      · rcases ih x h with h2 | h2
        · exact Or.inl ((mem_dkeys_cons kv rest x).mpr (Or.inr h2))
        · exact Or.inr h2

theorem dkeys_bucketAdd_nodup (d : List (ℚ × ℚ)) (k v : ℚ)
    (hd : (dkeys d).Nodup) : (dkeys (bucketAdd d k v)).Nodup := by
  induction d with
  | nil => simp [bucketAdd, dkeys]
  | cons kv rest ih =>
    have hpair := List.nodup_cons.mp hd
    have hd1 : kv.1 ∉ dkeys rest := hpair.1
    have hd2 : (dkeys rest).Nodup := hpair.2
    rw [bucketAdd]
    split
    · exact hd
    · next hne =>
      refine List.nodup_cons.mpr ⟨?_, ih hd2⟩
      intro hc
      rcases dkeys_bucketAdd_subset rest k v kv.1 hc with h | h
      · exact hd1 h
      · exact hne h

theorem sum_bucketAdd (d : List (ℚ × ℚ)) (k v : ℚ) :
    ((bucketAdd d k v).map Prod.snd).sum = (d.map Prod.snd).sum + v := by
  induction d with
  | nil => simp [bucketAdd]
  | cons kv rest ih =>
    rw [bucketAdd]
    split
    · simp only [List.map_cons, List.sum_cons, qadd_eq]
      ring
    · simp only [List.map_cons, List.sum_cons, ih]
      ring

theorem nonneg_bucketAdd (d : List (ℚ × ℚ)) (k v : ℚ) (hv : 0 ≤ v)
    (hd : ∀ kv ∈ d, 0 ≤ kv.2) : ∀ kv ∈ bucketAdd d k v, 0 ≤ kv.2 := by
  induction d with
  | nil =>
    intro kv hkv
    simp [bucketAdd] at hkv
    simp [hkv]
    exact hv
  | cons kv0 rest ih =>
    rw [bucketAdd]
    split
    · intro kv hkv
      rcases List.mem_cons.mp hkv with h | h
      · rw [h]
        simp only [qadd_eq]
        have := hd kv0 (by simp)
        positivity
      · exact hd kv (List.mem_cons_of_mem _ h)
    · intro kv hkv
      rcases List.mem_cons.mp hkv with h | h
      · rw [h]; exact hd kv0 (by simp)
      · exact ih (fun x hx => hd x (List.mem_cons_of_mem _ hx)) kv h

/-- Fold of the Python inner loop `for price in levels: price = round(price, 3);
if price in d: d[price] += v` over a list of levels. -/
def bumpAll (d : List (ℚ × ℚ)) (l : List ℚ) (v : ℚ) : List (ℚ × ℚ) :=
  l.foldl (fun d' q => updFirst d' (round3 q) (fun x => qadd x v)) d

theorem dkeys_bumpAll (d : List (ℚ × ℚ)) (l : List ℚ) (v : ℚ) :
    dkeys (bumpAll d l v) = dkeys d := by
  induction l generalizing d with
  | nil => rfl
  | cons q rest ih =>
    rw [bumpAll, List.foldl_cons, ← bumpAll, ih, dkeys_updFirst]

theorem dlookup_of_mem_dkeys (d : List (ℚ × ℚ)) (p : ℚ) (hp : p ∈ dkeys d) :
    dlookup d p = some (dlookupD d p) := by
  cases h : dlookup d p with
  | none => exact absurd hp ((dlookup_eq_none d p).mp h)
  | some w => rw [dlookupD, h]; rfl

theorem dlookupD_updFirst_qadd (d : List (ℚ × ℚ)) (k v p : ℚ) (hp : p ∈ dkeys d) :
    dlookupD (updFirst d k (fun x => qadd x v)) p =
      dlookupD d p + if p = k then v else 0 := by
  rw [dlookupD, dlookup_updFirst]
  by_cases h : p = k
  · rw [if_pos h, if_pos h, dlookup_of_mem_dkeys d p hp]
    simp [qadd_eq]
  · rw [if_neg h, if_neg h, dlookupD]
    ring

theorem dlookupD_bumpAll (l : List ℚ) (d : List (ℚ × ℚ)) (v p : ℚ) (hp : p ∈ dkeys d) :
    dlookupD (bumpAll d l v) p =
      dlookupD d p + (((l.map round3).count p : ℕ) : ℚ) * v := by
  induction l generalizing d with
  | nil => simp [bumpAll]
  | cons q rest ih =>
    rw [bumpAll, List.foldl_cons, ← bumpAll]
    rw [ih _ (by rw [dkeys_updFirst]; exact hp)]
    rw [dlookupD_updFirst_qadd d _ v p hp]
    rw [List.map_cons, List.count_cons]
    simp only [beq_iff_eq]
    by_cases h : p = round3 q
    · rw [if_pos h, if_pos (by rw [h])]
      push_cast
      ring
    · rw [if_neg h, if_neg (fun hc => h hc.symm)]
      push_cast
      ring

theorem sum_bumpAll (l : List ℚ) (d : List (ℚ × ℚ)) (v : ℚ)
    (hmem : ∀ q ∈ l, round3 q ∈ dkeys d) :
    ((bumpAll d l v).map Prod.snd).sum = (d.map Prod.snd).sum + (l.length : ℚ) * v := by
  induction l generalizing d with
  | nil => simp [bumpAll]
  | cons q rest ih =>
    rw [bumpAll, List.foldl_cons, ← bumpAll]
    rw [ih _ (fun x hx => by
      rw [dkeys_updFirst]; exact hmem x (List.mem_cons_of_mem _ hx))]
    rw [sum_updFirst_qadd, if_pos (hmem q (by simp))]
    simp only [List.length_cons]
    push_cast
    ring

theorem nonneg_bumpAll (l : List ℚ) (d : List (ℚ × ℚ)) (v : ℚ) (hv : 0 ≤ v)
    (hd : ∀ kv ∈ d, 0 ≤ kv.2) : ∀ kv ∈ bumpAll d l v, 0 ≤ kv.2 := by
  induction l generalizing d with
  | nil => exact hd
  | cons q rest ih =>
    rw [bumpAll, List.foldl_cons, ← bumpAll]
    exact ih _ (nonneg_updFirst_qadd d _ v hv hd)

/-! ### Minima and maxima of lists (Python `min`/`max`) -/

/-- Python `min` over a list, with junk value 0 on the empty list. -/
def listMin : List ℚ → ℚ
  | [] => 0
  | x :: xs => xs.foldl qmin x

/-- Python `max` over a list, with junk value 0 on the empty list. -/
def listMax : List ℚ → ℚ
  | [] => 0
  | x :: xs => xs.foldl qmax x

theorem foldl_qmax_init_le (l : List ℚ) (acc : ℚ) : acc ≤ l.foldl qmax acc := by
  induction l generalizing acc with
  | nil => exact le_refl _
  | cons x xs ih =>
    rw [List.foldl_cons]
    refine le_trans ?_ (ih (qmax acc x))
    rw [qmax_eq]
    exact le_max_left _ _

theorem le_foldl_qmax (l : List ℚ) (acc x : ℚ) (hx : x ∈ l) : x ≤ l.foldl qmax acc := by
  induction l generalizing acc with
  | nil => exact absurd hx (by simp)
  | cons y ys ih =>
    rw [List.foldl_cons]
    rcases List.mem_cons.mp hx with h | h
    · refine le_trans ?_ (foldl_qmax_init_le ys (qmax acc y))
      rw [h, qmax_eq]
      exact le_max_right _ _
    · exact ih _ h

theorem le_listMax (l : List ℚ) (x : ℚ) (hx : x ∈ l) : x ≤ listMax l := by
  cases l with
  | nil => exact absurd hx (by simp)
  | cons y ys =>
    rw [listMax]
    rcases List.mem_cons.mp hx with h | h
    · rw [h]; exact foldl_qmax_init_le ys y
    · exact le_foldl_qmax ys y x h

theorem foldl_qmin_le_init (l : List ℚ) (acc : ℚ) : l.foldl qmin acc ≤ acc := by
  induction l generalizing acc with
  | nil => exact le_refl _
  | cons x xs ih =>
    rw [List.foldl_cons]
    refine le_trans (ih (qmin acc x)) ?_
    rw [qmin_eq]
    exact min_le_left _ _

theorem foldl_qmin_le (l : List ℚ) (acc x : ℚ) (hx : x ∈ l) : l.foldl qmin acc ≤ x := by
  induction l generalizing acc with
  | nil => exact absurd hx (by simp)
  | cons y ys ih =>
    rw [List.foldl_cons]
    rcases List.mem_cons.mp hx with h | h
    · refine le_trans (foldl_qmin_le_init ys (qmin acc y)) ?_
      rw [h, qmin_eq]
      exact min_le_right _ _
    · exact ih _ h

theorem listMin_le (l : List ℚ) (x : ℚ) (hx : x ∈ l) : listMin l ≤ x := by
  cases l with
  | nil => exact absurd hx (by simp)
  | cons y ys =>
    rw [listMin]
    rcases List.mem_cons.mp hx with h | h
    · rw [h]; exact foldl_qmin_le_init ys y
    · exact foldl_qmin_le ys y x h

/-! ### Bars and price bounds -/

/-- One OHLCV bar of the input DataFrame. -/
structure Bar where
  Open : ℚ
  High : ℚ
  Low : ℚ
  Close : ℚ
  Volume : ℚ
deriving DecidableEq

/-- All Open/High/Low/Close values of the bar sequence, as scanned by
`df[['Open', 'High', 'Low', 'Close']]`. -/
def ohlcValues (bars : List Bar) : List ℚ :=
  bars.foldr (fun b acc => b.Open :: b.High :: b.Low :: b.Close :: acc) []

/-- Python `lowest_price = df[['Open','High','Low','Close']].min().min()`. -/
def lowest_price (bars : List Bar) : ℚ := listMin (ohlcValues bars)

/-- Python `highest_price = df[['Open','High','Low','Close']].max().max()`. -/
def highest_price (bars : List Bar) : ℚ := listMax (ohlcValues bars)

/-- Python `min_price = round(math.floor(lowest_price * 1000) / 1000, 3)`. -/
def min_price (bars : List Bar) : ℚ := round3 (ifloor3 (lowest_price bars))

/-- Python `max_price = round(math.ceil(highest_price * 1000) / 1000, 3)`. -/
def max_price (bars : List Bar) : ℚ := round3 (iceil3 (highest_price bars))

theorem mem_ohlc_low (bars : List Bar) (b : Bar) (hb : b ∈ bars) :
    b.Low ∈ ohlcValues bars := by
  induction bars with
  | nil => exact absurd hb (by simp)
  | cons b0 rest ih =>
    rw [ohlcValues, List.foldr_cons]
    rcases List.mem_cons.mp hb with h | h
    · rw [h]; simp
    · simp only [List.mem_cons]
      right; right; right; right
      exact ih h

theorem mem_ohlc_high (bars : List Bar) (b : Bar) (hb : b ∈ bars) :
    b.High ∈ ohlcValues bars := by
  induction bars with
  | nil => exact absurd hb (by simp)
  | cons b0 rest ih =>
    rw [ohlcValues, List.foldr_cons]
    rcases List.mem_cons.mp hb with h | h
    · rw [h]; simp
    · simp only [List.mem_cons]
      right; right; right; right
      exact ih h

theorem min_price_milli (bars : List Bar) : IsMilli (min_price bars) := round3_milli _

theorem max_price_milli (bars : List Bar) : IsMilli (max_price bars) := round3_milli _

theorem min_price_eq (bars : List Bar) : min_price bars = ifloor3 (lowest_price bars) :=
  round3_of_milli (ifloor3_milli _)

theorem max_price_eq (bars : List Bar) : max_price bars = iceil3 (highest_price bars) :=
  round3_of_milli (iceil3_milli _)

theorem min_price_le_round3_low (bars : List Bar) (b : Bar) (hb : b ∈ bars) :
    min_price bars ≤ round3 b.Low := by
  rw [min_price_eq]
  exact ifloor3_le_round3 (listMin_le _ _ (mem_ohlc_low bars b hb))

theorem round3_high_le_max_price (bars : List Bar) (b : Bar) (hb : b ∈ bars) :
    round3 b.High ≤ max_price bars := by
  rw [max_price_eq]
  exact round3_le_iceil3 (le_listMax _ _ (mem_ohlc_high bars b hb))

/-! ### Accepted granularities -/

/-- The accepted granularity set `[0.001, 0.005, 0.01, 0.02, 0.05, 0.10, 0.25]`
checked at the top of the counting and volume profile methods. -/
def acceptedGranularities : List ℚ :=
  [qdiv 1 1000, qdiv 5 1000, qdiv 1 100, qdiv 2 100, qdiv 5 100, qdiv 10 100,
    qdiv 25 100]

theorem accepted_cases {g : ℚ} (hg : g ∈ acceptedGranularities) :
    g = 1/1000 ∨ g = 1/200 ∨ g = 1/100 ∨ g = 1/50 ∨ g = 1/20 ∨ g = 1/10 ∨
      g = 1/4 := by
  simp only [acceptedGranularities, qdiv_eq, List.mem_cons,
    List.mem_singleton, List.not_mem_nil, or_false] at hg
  rcases hg with h | h | h | h | h | h | h <;> rw [h] <;> norm_num

theorem accepted_pos {g : ℚ} (hg : g ∈ acceptedGranularities) : 0 < g := by
  rcases accepted_cases hg with h | h | h | h | h | h | h <;> rw [h] <;> norm_num

theorem accepted_milli {g : ℚ} (hg : g ∈ acceptedGranularities) : IsMilli g := by
  rcases accepted_cases hg with h | h | h | h | h | h | h <;> rw [h]
  · exact ⟨1, by norm_num⟩
  · exact ⟨5, by norm_num⟩
  · exact ⟨10, by norm_num⟩
  · exact ⟨20, by norm_num⟩
  · exact ⟨50, by norm_num⟩
  · exact ⟨100, by norm_num⟩
  · exact ⟨250, by norm_num⟩

theorem accepted_inv {g : ℚ} (hg : g ∈ acceptedGranularities) :
    ∃ m : ℤ, 0 < m ∧ g = 1/(m : ℚ) ∧ m ∣ 1000 := by
  rcases accepted_cases hg with h | h | h | h | h | h | h <;> rw [h]
  · exact ⟨1000, by norm_num, by norm_num, by norm_num⟩
  · exact ⟨200, by norm_num, by norm_num, by norm_num⟩
  · exact ⟨100, by norm_num, by norm_num, by norm_num⟩
  · exact ⟨50, by norm_num, by norm_num, by norm_num⟩
  · exact ⟨20, by norm_num, by norm_num, by norm_num⟩
  · exact ⟨10, by norm_num, by norm_num, by norm_num⟩
  · exact ⟨4, by norm_num, by norm_num, by norm_num⟩

/-! ### The count and volume fine tables -/

/-- The 0.001-step occupancy dictionary initialised by
`{round(price, 3): 0 for price in np.arange(min_price, max_price, 0.001)}`. -/
def price_dict_market (bars : List Bar) : List (ℚ × ℚ) :=
  (arange (min_price bars) (max_price bars) (qdiv 1 1000)).map
    (fun p => (round3 p, 0))

/-- One bar of the counting loop: the inner
`for price in np.arange(low, high, granularity)` with `+= 1` updates. -/
def applyBarCount (g : ℚ) (d : List (ℚ × ℚ)) (b : Bar) : List (ℚ × ℚ) :=
  bumpAll d (arange (round3 b.Low) (round3 b.High) g) 1

/-- The populated counting dictionary of `market_profile_and_visualize`
(lines 163-173) and `market_profile_and_visualize_bars` (lines 286-296). -/
def count_fine_table (bars : List Bar) (g : ℚ) : List (ℚ × ℚ) :=
  bars.foldl (applyBarCount g) (price_dict_market bars)

/-- The volume dictionary initialised by
`{round(price, 3): 0 for price in np.arange(min_price, max_price, granularity)}`. -/
def volume_dict_init (bars : List Bar) (g : ℚ) : List (ℚ × ℚ) :=
  (arange (min_price bars) (max_price bars) g).map (fun p => (round3 p, 0))

/-- One bar of the volume loop: `volume_per_level = volume / num_levels if
num_levels > 0 else 0` distributed over the bar's levels. -/
def applyBarVolume (g : ℚ) (d : List (ℚ × ℚ)) (b : Bar) : List (ℚ × ℚ) :=
  let lvls := arange (round3 b.Low) (round3 b.High) g
  bumpAll d lvls (if lvls.length = 0 then 0 else qdiv b.Volume (qofNat lvls.length))

/-- The populated volume dictionary of `volume_profile_and_visualize`. -/
def volume_fine_table (bars : List Bar) (g : ℚ) : List (ℚ × ℚ) :=
  bars.foldl (applyBarVolume g) (volume_dict_init bars g)

/-! ### Re-bucketing, sorting, PoC and Value Area -/

/-- Python `multiplier = int(1 / granularity)`.  For every accepted
granularity, `1/g` is an exactly representable integer-valued float, so the
truncation agrees with `⌊1/g⌋`. -/
def multiplier (g : ℚ) : ℤ := floorQ (qdiv (qofNat 1) g)

/-- Python `bucket = round(math.floor(price * multiplier) / multiplier, 3)`. -/
def bucketOf (g p : ℚ) : ℚ :=
  round3 (qdiv (qofInt (floorQ (qmul p (qofInt (multiplier g)))))
    (qofInt (multiplier g)))

/-- The re-bucketing loop building `aggregated_dict` from the fine table. -/
def aggregate (d : List (ℚ × ℚ)) (g : ℚ) : List (ℚ × ℚ) :=
  d.foldl (fun a kv => bucketAdd a (bucketOf g kv.1) kv.2) []

/-- Ordering used by `sorted(aggregated_dict.items(), reverse=True)`:
descending keys. -/
def keyGE (a b : ℚ × ℚ) : Prop := b.1 ≤ a.1

instance : DecidableRel keyGE := fun a b => inferInstanceAs (Decidable (b.1 ≤ a.1))

instance : IsTotal (ℚ × ℚ) keyGE := ⟨fun a b => le_total b.1 a.1⟩

instance : IsTrans (ℚ × ℚ) keyGE := ⟨fun _ _ _ h1 h2 => le_trans h2 h1⟩

/-- Python `dict(sorted(aggregated_dict.items(), reverse=True))`. -/
def sortDesc (d : List (ℚ × ℚ)) : List (ℚ × ℚ) := List.insertionSort keyGE d

/-- Embedding of `np.argmax`: index of the first occurrence of the maximum. -/
def argmaxQ : List ℚ → ℕ
  | [] => 0
  | x :: xs => if xs.all (fun y => decide (y ≤ x)) then 0 else argmaxQ xs + 1

/-- Ordering realising stable ascending `np.argsort` on the enumerated list:
by value, then by original index. -/
def massIdxLE (a b : ℕ × (ℚ × ℚ)) : Prop :=
  a.2.2 < b.2.2 ∨ (a.2.2 = b.2.2 ∧ a.1 ≤ b.1)

instance : DecidableRel massIdxLE :=
  fun a b => inferInstanceAs (Decidable (a.2.2 < b.2.2 ∨ (a.2.2 = b.2.2 ∧ a.1 ≤ b.1)))

instance : IsTotal (ℕ × (ℚ × ℚ)) massIdxLE := by
  refine ⟨fun a b => ?_⟩
  rcases lt_trichotomy a.2.2 b.2.2 with h | h | h
  · exact Or.inl (Or.inl h)
  · rcases le_total a.1 b.1 with h2 | h2
    · exact Or.inl (Or.inr ⟨h, h2⟩)
    · exact Or.inr (Or.inr ⟨h.symm, h2⟩)
  · exact Or.inr (Or.inl h)

instance : IsTrans (ℕ × (ℚ × ℚ)) massIdxLE := by
  refine ⟨fun a b c hab hbc => ?_⟩
  rcases hab with h1 | ⟨h1, h1i⟩
  · rcases hbc with h2 | ⟨h2, _⟩
    · exact Or.inl (lt_trans h1 h2)
    · exact Or.inl (h2 ▸ h1)
  · rcases hbc with h2 | ⟨h2, h2i⟩
    · exact Or.inl (h1 ▸ h2)
    · exact Or.inr ⟨h1.trans h2, le_trans h1i h2i⟩

/-- The iteration order of the Value Area loop
`for i in np.argsort(counts)[::-1]`: the profile entries listed by descending
mass, ties in descending original index (i.e. ascending price for a
descending-price profile). -/
def selOrder (d : List (ℚ × ℚ)) : List (ℚ × ℚ) :=
  ((List.insertionSort massIdxLE d.enum).reverse).map Prod.snd

/-- The accumulation loop: keep taking entries, append each, stop as soon as
the running total reaches the threshold. -/
def takeUntil (thr : ℚ) : List (ℚ × ℚ) → ℚ → List (ℚ × ℚ)
  | [], _ => []
  | kv :: rest, acc =>
    if thr ≤ qadd acc kv.2 then [kv] else kv :: takeUntil thr rest (qadd acc kv.2)

/-- Python `poc = prices[np.argmax(counts)]`. -/
def profile_poc (s : List (ℚ × ℚ)) : ℚ :=
  (s.map Prod.fst).getD (argmaxQ (s.map Prod.snd)) 0

/-- Python `value_area_threshold = total_count * 0.70`. -/
def va_threshold (s : List (ℚ × ℚ)) : ℚ := qmul (qsum (s.map Prod.snd)) (qdiv 70 100)

/-- The entries accumulated by the Value Area loop, in iteration order. -/
def va_selected (s : List (ℚ × ℚ)) : List (ℚ × ℚ) :=
  takeUntil (va_threshold s) (selOrder s) 0

/-- Python `sorted_aggregated_dict` of the counting pipeline. -/
def sorted_profile_count (bars : List Bar) (g : ℚ) : List (ℚ × ℚ) :=
  sortDesc (aggregate (count_fine_table bars g) g)

/-- Python `sorted_aggregated_dict` of the volume pipeline. -/
def sorted_profile_volume (bars : List Bar) (g : ℚ) : List (ℚ × ℚ) :=
  sortDesc (aggregate (volume_fine_table bars g) g)

/-- The `(profile, PoC, VAH, VAL)` result tuple shared verbatim by the tails
of `market_profile_and_visualize` and `volume_profile_and_visualize`. -/
def profile_result (s : List (ℚ × ℚ)) : List (ℚ × ℚ) × ℚ × ℚ × ℚ :=
  (s, profile_poc s, listMax ((va_selected s).map Prod.fst),
    listMin ((va_selected s).map Prod.fst))

/-- Embedding of `MarketProfileVolumeProfile.market_profile_and_visualize`
(counting mode, visualization elided): returns the aggregated
descending-price profile together with `(PoC, VAH, VAL)`, or `None` when the
granularity is rejected (`ValueError`) or the profile is empty (in which case
`zip(*sorted_aggregated_dict.items())` raises). -/
def market_profile_and_visualize (bars : List Bar) (g : ℚ) :
    Option (List (ℚ × ℚ) × ℚ × ℚ × ℚ) :=
  if g ∈ acceptedGranularities then
    if (sorted_profile_count bars g).isEmpty then none
    else some (profile_result (sorted_profile_count bars g))
  else none

/-- Embedding of `volume_profile_and_visualize` (both copies): volume mode of
the same pipeline. -/
def volume_profile_and_visualize (bars : List Bar) (g : ℚ) :
    Option (List (ℚ × ℚ) × ℚ × ℚ × ℚ) :=
  if g ∈ acceptedGranularities then
    if (sorted_profile_volume bars g).isEmpty then none
    else some (profile_result (sorted_profile_volume bars g))
  else none

/-- The Classes copy `market_profile_and_visualize_bars` computes the same
function as the scripts copy `market_profile_and_visualize`; its broad
`except` clauses return `(None, None, None, None)`, which the `Option` result
already models. -/
def market_profile_and_visualize_bars (bars : List Bar) (g : ℚ) :
    Option (List (ℚ × ℚ) × ℚ × ℚ × ℚ) :=
  market_profile_and_visualize bars g

/-! ### Letter (TPO) profiles -/

/-- The uppercase alphabet used by `string.ascii_uppercase`. -/
def alphabetU : List Char := "ABCDEFGHIJKLMNOPQRSTUVWXYZ".toList

/-- One label of `generate_letter_list`: the inner `while i >= 0` loop building
a bijective base-26 label from right to left (`i = i // 26 - 1` terminates the
loop by leaving the non-negative range). -/
def letterOf (i : ℕ) : String :=
  let c := alphabetU.getD (i % 26) 'A'
  if i < 26 then String.mk [c] else letterOf (i / 26 - 1) ++ String.mk [c]
termination_by i
decreasing_by
  have h26 : i / 26 < i := Nat.div_lt_self (by omega) (by omega)
  omega

/-- Embedding of `generate_letter_list(n)`. -/
def generate_letter_list (n : ℕ) : List String := (List.range n).map letterOf

/-- The letter dictionary initialised by
`{round(price, 3): [] for price in np.arange(min_price, max_price, granularity)}`. -/
def letter_dict_init (bars : List Bar) (g : ℚ) : List (ℚ × List String) :=
  (arange (min_price bars) (max_price bars) g).map (fun p => (round3 p, []))

/-- The inner letter loop `for price in np.arange(low, high + granularity,
granularity)` with `price_dict[price].append(letter)` on present keys. -/
def appendAll (d : List (ℚ × List String)) (l : List ℚ) (s : String) :
    List (ℚ × List String) :=
  l.foldl (fun d' q => updFirst d' (round3 q) (fun ls => ls ++ [s])) d

/-- One row of the letter loop. -/
def applyBarLetter (g : ℚ) (d : List (ℚ × List String)) (bl : Bar × String) :
    List (ℚ × List String) :=
  appendAll d (arange (round3 bl.1.Low) (qadd (round3 bl.1.High) g) g) bl.2

/-- The populated letter dictionary shared by both letter-profile methods. -/
def letter_fine_table (bars : List Bar) (g : ℚ) : List (ℚ × List String) :=
  (bars.zip (generate_letter_list bars.length)).foldl (applyBarLetter g)
    (letter_dict_init bars g)

/-- Embedding of the scripts-module `market_profile_with_letters`: validates
the granularity against the accepted set (raising `ValueError` otherwise,
modelled as `none`) and returns the letter dictionary in descending-price
order. -/
def market_profile_with_letters (bars : List Bar) (g : ℚ) :
    Option (List (ℚ × List String)) :=
  if g ∈ acceptedGranularities then some ((letter_fine_table bars g).reverse)
  else none

/-- Python `sorted_price_counts`: the per-level letter counts of the letter
dictionary, sorted in descending-price order. -/
def sorted_letter_counts (bars : List Bar) (g : ℚ) : List (ℚ × ℚ) :=
  sortDesc ((letter_fine_table bars g).map (fun kv => (kv.1, qofNat kv.2.length)))

/-- The Value Area loop of `market_profile_and_visualize_letters`, which
(unlike the counting/volume pipelines) accumulates the buckets in
descending-price dictionary order, not by descending count. -/
def letters_selected (s : List (ℚ × ℚ)) : List (ℚ × ℚ) :=
  takeUntil (qmul (qsum (s.map Prod.snd)) (qdiv 7 10)) s 0

/-- Embedding of the Classes-module `market_profile_and_visualize_letters`
(visualization elided): validates only that the granularity is positive, then
computes the letter dictionary, per-level letter counts, PoC and the Value
Area bounds; all caught exceptions (including `max` over an empty dictionary)
are modelled as `none`. -/
def market_profile_and_visualize_letters (bars : List Bar) (g : ℚ) :
    Option (List (ℚ × List String) × ℚ × ℚ × ℚ) :=
  if 0 < g then
    if (sorted_letter_counts bars g).isEmpty then none
    else
      some ((letter_fine_table bars g).reverse,
        profile_poc (sorted_letter_counts bars g),
        listMax ((letters_selected (sorted_letter_counts bars g)).map Prod.fst),
        listMin ((letters_selected (sorted_letter_counts bars g)).map Prod.fst))
  else none

/-! ### Price-structure classifier -/

/-- A profile value passed to `price_structure_analysis`: either a list of
letters (TPO profile) or a numeric accumulator (count/volume profile). -/
inductive PVal where
  | letters : List String → PVal
  | num : ℚ → PVal
deriving DecidableEq

/-- The per-bucket mass used by `price_structure_analysis`:
`len(agg_dict[key]) if isinstance(agg_dict[key], (list, tuple, str)) else 1`.
A numeric bucket therefore contributes the constant 1, not its numeric
value. -/
def pvalMass : PVal → ℕ
  | .letters ls => ls.length
  | .num _ => 1

/-- Embedding of the Classes-module `price_structure_analysis`: the guard
`len(agg_dict) < 2` raises `ValueError` (modelled as `none`); otherwise the
first two and last two buckets are labelled.  The printed labels are returned
verbatim, including the code's "Poor Weak Low" spelling. -/
def price_structure_analysis (d : List (ℚ × PVal)) : Option (String × String) :=
  if d.length < 2 then none
  else
    some
      (if 2 < ((d.take 2).map (fun kv => pvalMass kv.2)).sum then "Poor/Weak High"
        else "Strong High",
       if 2 < ((d.drop (d.length - 2)).map (fun kv => pvalMass kv.2)).sum then
          "Poor Weak Low" else "Strong Low")

/-! ### Hurst regime classifier -/

/-- Market regime labels. -/
inductive Regime where
  | MeanReverting
  | RandomWalk
  | Trending
deriving DecidableEq

/-- The `if/elif` classification chain of `analyze_trends`, on an exact
rational Hurst value.  The chain has no `else`, so a value matching none of
the three guards (impossible for a real number) would leave the tallies
untouched; that is modelled by the `none` branch. -/
def classify (h : ℚ) : Option Regime :=
  if h < qdiv 49 100 then some Regime.MeanReverting
  else if qdiv 49 100 ≤ h ∧ h ≤ qdiv 51 100 then some Regime.RandomWalk
  else if qdiv 51 100 < h then some Regime.Trending
  else none

/-- Embedding of `hurst_exponent(series, max_lag=100)`: a series shorter than
`max_lag` yields `np.nan` (modelled as `none`).  The rescaled-range body
(`np.std` differences, log-log `np.polyfit` slope) is a floating-point
numerical computation with no exact rational counterpart; it is abstracted as
the `core` parameter, `none` standing for a NaN result.  Every theorem below
holds for all instantiations of `core`. -/
def hurst_exponent (core : List ℚ → Option ℚ) (series : List ℚ) (maxLag : ℕ) :
    Option ℚ :=
  if series.length < maxLag then none else core series

/-- The mutable analysis state of `MarketRegimeAnalysis`: the three tallies of
`market_regime_counts` and the insertion-ordered `hurst_values_by_date`. -/
structure RegimeState where
  mr : ℕ
  rw : ℕ
  tr : ℕ
  records : List (ℕ × ℚ)
deriving DecidableEq

/-- Closing prices of one calendar day: `df[df.index.floor('D') == date]['Close']`.
A timestamp is modelled as a (day, intraday) pair, so `floor('D')` is the
first component. -/
def dailyCloses (df : List ((ℕ × ℕ) × ℚ)) (d : ℕ) : List ℚ :=
  (df.filter (fun r => decide (r.1.1 = d))).map Prod.snd

/-- First-occurrence deduplication, as performed by `pd.Index.unique` on the
floored timestamps. -/
def uniqDates : List ℕ → List ℕ
  | [] => []
  | d :: rest => d :: uniqDates (rest.filter (fun x => decide (x ≠ d)))
termination_by l => l.length
decreasing_by
  simp only [List.length_cons]
  have := List.length_filter_le (fun x => decide (x ≠ d)) rest
  omega

/-- Python `self.unique_dates = list(df.index.floor('D').unique())[1:]`. -/
def unique_dates (df : List ((ℕ × ℕ) × ℚ)) : List ℕ :=
  (uniqDates (df.map (fun r => r.1.1))).drop 1

/-- One iteration of the `for date in self.unique_dates` loop of
`analyze_trends`: skip empty days, skip NaN Hurst values, otherwise record the
value and bump exactly the tally selected by the `if/elif` chain. -/
def stepDate (core : List ℚ → Option ℚ) (df : List ((ℕ × ℕ) × ℚ))
    (st : RegimeState) (d : ℕ) : RegimeState :=
  let daily := dailyCloses df d
  if daily.isEmpty then st
  else
    match hurst_exponent core daily 100 with
    | none => st
    | some h =>
      let st1 : RegimeState := ⟨st.mr, st.rw, st.tr, st.records ++ [(d, h)]⟩
      match classify h with
      | some Regime.MeanReverting => ⟨st1.mr + 1, st1.rw, st1.tr, st1.records⟩
      | some Regime.RandomWalk => ⟨st1.mr, st1.rw + 1, st1.tr, st1.records⟩
      | some Regime.Trending => ⟨st1.mr, st1.rw, st1.tr + 1, st1.records⟩
      | none => st1

/-- Embedding of `MarketRegimeAnalysis.analyze_trends` (plot frame elided),
starting from the `__init__` state of zero tallies and no records. -/
def analyze_trends (core : List ℚ → Option ℚ) (df : List ((ℕ × ℕ) × ℚ)) :
    RegimeState :=
  (unique_dates df).foldl (stepDate core df) ⟨0, 0, 0, []⟩

/-! ### Definitions taken from the specification text, for refinement
comparisons -/

/-- Modelled from the spec: "sort buckets by mass descending (stable on ties,
preserving descending-price order among equal masses); accumulate buckets
into the Value Area set until cumulative mass ≥ 70% of total mass".  On a
descending-price profile the stable descending-mass order is exactly the
lexicographic (mass descending, price descending) order realised here. -/
def specMassGE (a b : ℚ × ℚ) : Prop := b.2 < a.2 ∨ (a.2 = b.2 ∧ b.1 ≤ a.1)

instance : DecidableRel specMassGE :=
  fun a b => inferInstanceAs (Decidable (b.2 < a.2 ∨ (a.2 = b.2 ∧ b.1 ≤ a.1)))

instance : IsTotal (ℚ × ℚ) specMassGE := by
  refine ⟨fun a b => ?_⟩
  rcases lt_trichotomy a.2 b.2 with h | h | h
  · exact Or.inr (Or.inl h)
  · rcases le_total a.1 b.1 with h2 | h2
    · exact Or.inr (Or.inr ⟨h.symm, h2⟩)
    · exact Or.inl (Or.inr ⟨h, h2⟩)
  · exact Or.inl (Or.inl h)

instance : IsTrans (ℚ × ℚ) specMassGE := by
  refine ⟨fun a b c hab hbc => ?_⟩
  rcases hab with h1 | ⟨h1, h1p⟩
  · rcases hbc with h2 | ⟨h2, _⟩
    · exact Or.inl (lt_trans h2 h1)
    · exact Or.inl (h2 ▸ h1)
  · rcases hbc with h2 | ⟨h2, h2p⟩
    · exact Or.inl (h1 ▸ h2)
    · exact Or.inr ⟨h1.trans h2, le_trans h2p h1p⟩

/-- Modelled from the spec: the Value Area selection described in §4.3,
accumulating buckets in stable descending-mass order until the 70% threshold
is reached. -/
def spec_value_area (s : List (ℚ × ℚ)) : List (ℚ × ℚ) :=
  takeUntil (qmul (qsum (s.map Prod.snd)) (qdiv 70 100))
    (List.insertionSort specMassGE s) 0

/-- Modelled from the spec: the total of the per-bar apportioned volume
contributions — a bar touching at least one level contributes its full
volume, a bar touching zero levels contributes nothing. -/
def spec_apportioned_total (bars : List Bar) (g : ℚ) : ℚ :=
  qsum (bars.map (fun b =>
    if (arange (round3 b.Low) (round3 b.High) g).length = 0 then 0 else b.Volume))

/-! ### Inversion of the pipeline entry points -/

theorem market_profile_inv {bars : List Bar} {g : ℚ} {d : List (ℚ × ℚ)}
    {poc vah val : ℚ}
    (h : market_profile_and_visualize bars g = some (d, poc, vah, val)) :
    g ∈ acceptedGranularities ∧ d = sorted_profile_count bars g ∧ d ≠ [] ∧
      poc = profile_poc d ∧ vah = listMax ((va_selected d).map Prod.fst) ∧
      val = listMin ((va_selected d).map Prod.fst) := by
  rw [market_profile_and_visualize] at h
  split at h
  · next hg =>
    split at h
    · exact absurd h (by simp)
    · next hne =>
      rw [profile_result] at h
      have h' := Option.some.inj h
      simp only [Prod.mk.injEq] at h'
      obtain ⟨h1, h2, h3, h4⟩ := h'
      refine ⟨hg, h1.symm, ?_, ?_, ?_, ?_⟩
      · rw [← h1]
        intro hc
        exact hne (by rw [hc]; rfl)
      · rw [← h1]; exact h2.symm
      · rw [← h1]; exact h3.symm
      · rw [← h1]; exact h4.symm
  · exact absurd h (by simp)

theorem volume_profile_inv {bars : List Bar} {g : ℚ} {d : List (ℚ × ℚ)}
    {poc vah val : ℚ}
    (h : volume_profile_and_visualize bars g = some (d, poc, vah, val)) :
    g ∈ acceptedGranularities ∧ d = sorted_profile_volume bars g ∧ d ≠ [] ∧
      poc = profile_poc d ∧ vah = listMax ((va_selected d).map Prod.fst) ∧
      val = listMin ((va_selected d).map Prod.fst) := by
  rw [volume_profile_and_visualize] at h
  split at h
  · next hg =>
    split at h
    · exact absurd h (by simp)
    · next hne =>
      rw [profile_result] at h
      have h' := Option.some.inj h
      simp only [Prod.mk.injEq] at h'
      obtain ⟨h1, h2, h3, h4⟩ := h'
      refine ⟨hg, h1.symm, ?_, ?_, ?_, ?_⟩
      · rw [← h1]
        intro hc
        exact hne (by rw [hc]; rfl)
      · rw [← h1]; exact h2.symm
      · rw [← h1]; exact h3.symm
      · rw [← h1]; exact h4.symm
  · exact absurd h (by simp)

/-! ### Facts about `aggregate` -/

theorem aggregate_core_sum (g : ℚ) (d : List (ℚ × ℚ)) :
    ∀ acc : List (ℚ × ℚ),
      ((d.foldl (fun a kv => bucketAdd a (bucketOf g kv.1) kv.2) acc).map
        Prod.snd).sum = (acc.map Prod.snd).sum + (d.map Prod.snd).sum := by
  induction d with
  | nil => intro acc; simp
  | cons kv rest ih =>
    intro acc
    rw [List.foldl_cons, ih, sum_bucketAdd]
    simp only [List.map_cons, List.sum_cons]
    ring

theorem sum_aggregate (d : List (ℚ × ℚ)) (g : ℚ) :
    ((aggregate d g).map Prod.snd).sum = (d.map Prod.snd).sum := by
  rw [aggregate, aggregate_core_sum]
  simp

theorem aggregate_core_keys (g : ℚ) (d : List (ℚ × ℚ)) :
    ∀ acc : List (ℚ × ℚ),
      ∀ k ∈ dkeys (d.foldl (fun a kv => bucketAdd a (bucketOf g kv.1) kv.2) acc),
        k ∈ dkeys acc ∨ ∃ p ∈ dkeys d, k = bucketOf g p := by
  induction d with
  | nil => intro acc k hk; exact Or.inl hk
  | cons kv rest ih =>
    intro acc k hk
    rw [List.foldl_cons] at hk
    rcases ih _ k hk with h | ⟨p, hp, hpk⟩
    · rcases dkeys_bucketAdd_subset acc (bucketOf g kv.1) kv.2 k h with h2 | h2
      · exact Or.inl h2
      · exact Or.inr ⟨kv.1, (mem_dkeys_cons kv rest kv.1).mpr (Or.inl rfl), h2⟩
    · exact Or.inr ⟨p, (mem_dkeys_cons kv rest p).mpr (Or.inr hp), hpk⟩

theorem aggregate_keys (d : List (ℚ × ℚ)) (g : ℚ) :
    ∀ k ∈ dkeys (aggregate d g), ∃ p ∈ dkeys d, k = bucketOf g p := by
  intro k hk
  rcases aggregate_core_keys g d [] k hk with h | h
  · exact absurd h (by simp [dkeys])
  · exact h

theorem aggregate_core_nodup (g : ℚ) (d : List (ℚ × ℚ)) :
    ∀ acc : List (ℚ × ℚ), (dkeys acc).Nodup →
      (dkeys (d.foldl (fun a kv => bucketAdd a (bucketOf g kv.1) kv.2) acc)).Nodup := by
  induction d with
  | nil => intro acc h; exact h
  | cons kv rest ih =>
    intro acc h
    rw [List.foldl_cons]
    exact ih _ (dkeys_bucketAdd_nodup acc _ _ h)

theorem aggregate_nodup (d : List (ℚ × ℚ)) (g : ℚ) :
    (dkeys (aggregate d g)).Nodup :=
  aggregate_core_nodup g d [] (by simp [dkeys])

theorem aggregate_core_nonneg (g : ℚ) (d : List (ℚ × ℚ))
    (hd : ∀ kv ∈ d, 0 ≤ kv.2) :
    ∀ acc : List (ℚ × ℚ), (∀ kv ∈ acc, 0 ≤ kv.2) →
      ∀ kv ∈ d.foldl (fun a kv => bucketAdd a (bucketOf g kv.1) kv.2) acc,
        0 ≤ kv.2 := by
  induction d with
  | nil => intro acc h; exact h
  | cons kv0 rest ih =>
    intro acc h
    rw [List.foldl_cons]
    exact ih (fun x hx => hd x (List.mem_cons_of_mem _ hx)) _
      (nonneg_bucketAdd acc _ _ (hd kv0 (by simp)) h)

theorem aggregate_nonneg (d : List (ℚ × ℚ)) (g : ℚ) (hd : ∀ kv ∈ d, 0 ≤ kv.2) :
    ∀ kv ∈ aggregate d g, 0 ≤ kv.2 :=
  aggregate_core_nonneg g d hd [] (by simp)

/-! ### Facts about `sortDesc` -/

theorem sortDesc_perm (d : List (ℚ × ℚ)) : (sortDesc d).Perm d :=
  List.perm_insertionSort keyGE d

theorem sortDesc_sorted (d : List (ℚ × ℚ)) : List.Sorted keyGE (sortDesc d) :=
  List.sorted_insertionSort keyGE d

theorem sortDesc_sum (d : List (ℚ × ℚ)) :
    ((sortDesc d).map Prod.snd).sum = (d.map Prod.snd).sum :=
  ((sortDesc_perm d).map Prod.snd).sum_eq

theorem sortDesc_nodup_keys (d : List (ℚ × ℚ)) (h : (dkeys d).Nodup) :
    (dkeys (sortDesc d)).Nodup :=
  ((sortDesc_perm d).map Prod.fst).nodup_iff.mpr h

theorem sortDesc_mem {x : ℚ × ℚ} {d : List (ℚ × ℚ)} :
    x ∈ sortDesc d ↔ x ∈ d :=
  (sortDesc_perm d).mem_iff

/-! ### Non-negativity of the counting fine table -/

theorem price_dict_market_nonneg (bars : List Bar) :
    ∀ kv ∈ price_dict_market bars, 0 ≤ kv.2 := by
  intro kv hkv
  rw [price_dict_market] at hkv
  obtain ⟨p, _, hp⟩ := List.mem_map.mp hkv
  rw [← hp]

theorem count_fold_nonneg (g : ℚ) (bs : List Bar) :
    ∀ acc : List (ℚ × ℚ), (∀ kv ∈ acc, 0 ≤ kv.2) →
      ∀ kv ∈ bs.foldl (applyBarCount g) acc, 0 ≤ kv.2 := by
  induction bs with
  | nil => intro acc h; exact h
  | cons b rest ih =>
    intro acc h
    rw [List.foldl_cons]
    exact ih _ (nonneg_bumpAll _ acc 1 (by norm_num) h)

theorem count_fine_nonneg (bars : List Bar) (g : ℚ) :
    ∀ kv ∈ count_fine_table bars g, 0 ≤ kv.2 :=
  count_fold_nonneg g bars _ (price_dict_market_nonneg bars)

theorem sorted_profile_count_nonneg (bars : List Bar) (g : ℚ) :
    ∀ kv ∈ sorted_profile_count bars g, 0 ≤ kv.2 := by
  intro kv hkv
  rw [sorted_profile_count] at hkv
  exact aggregate_nonneg _ g (count_fine_nonneg bars g) kv (sortDesc_mem.mp hkv)

/-! ### Facts about `argmaxQ` -/

theorem argmaxQ_lt_length (l : List ℚ) (h : l ≠ []) : argmaxQ l < l.length := by
  induction l with
  | nil => exact absurd rfl h
  | cons x xs ih =>
    rw [argmaxQ]
    split
    · simp
    · next hall =>
      cases xs with
      | nil => simp at hall
      | cons y ys =>
        have := ih (by simp)
        simp only [List.length_cons] at *
        omega

theorem argmaxQ_max (l : List ℚ) : ∀ x ∈ l, x ≤ l.getD (argmaxQ l) 0 := by
  induction l with
  | nil => simp
  | cons x xs ih =>
    rw [argmaxQ]
    split
    · next hall =>
      intro y hy
      rw [List.getD_cons_zero]
      rcases List.mem_cons.mp hy with h | h
      · exact le_of_eq h
      · have := List.all_eq_true.mp hall y h
        exact of_decide_eq_true this
    · next hall =>
      intro y hy
      rw [List.getD_cons_succ]
      have hex : ∃ z ∈ xs, ¬ (z ≤ x) := by
        by_contra hc
        push_neg at hc
        exact hall (List.all_eq_true.mpr (fun z hz => decide_eq_true (hc z hz)))
      obtain ⟨z, hz, hzx⟩ := hex
      rcases List.mem_cons.mp hy with h | h
      · calc y = x := h
          _ ≤ z := le_of_lt (lt_of_not_le hzx)
          _ ≤ xs.getD (argmaxQ xs) 0 := ih z hz
      · exact ih y h

theorem argmaxQ_first (l : List ℚ) :
    ∀ j, j < argmaxQ l → l.getD j 0 < l.getD (argmaxQ l) 0 := by
  induction l with
  | nil => intro j hj; rw [argmaxQ] at hj; omega
  | cons x xs ih =>
    rw [argmaxQ]
    split
    · intro j hj; omega
    · next hall =>
      intro j hj
      match j with
      | 0 =>
        rw [List.getD_cons_zero, List.getD_cons_succ]
        have hex : ∃ z ∈ xs, ¬ (z ≤ x) := by
          by_contra hc
          push_neg at hc
          exact hall (List.all_eq_true.mpr (fun z hz => decide_eq_true (hc z hz)))
        obtain ⟨z, hz, hzx⟩ := hex
        calc x < z := lt_of_not_le hzx
          _ ≤ xs.getD (argmaxQ xs) 0 := argmaxQ_max xs z hz
      | j' + 1 =>
        rw [List.getD_cons_succ, List.getD_cons_succ]
        exact ih j' (by omega)

/-! ### Facts about `getLast?` and `Pairwise` -/

theorem getLast?_mem' {α : Type} :
    ∀ (l : List α) (z : α), l.getLast? = some z → z ∈ l
  | [], z, hz => by simp at hz
  | [a], z, hz => by
    simp only [List.getLast?_singleton, Option.some.injEq] at hz
    simp [hz]
  | a :: b :: t, z, hz => by
    rw [List.getLast?_cons_cons] at hz
    exact List.mem_cons_of_mem _ (getLast?_mem' (b :: t) z hz)

theorem pairwise_getLast_rel {α : Type} (r : α → α → Prop) :
    ∀ (l : List α), List.Pairwise r l → ∀ z, l.getLast? = some z →
      ∀ x ∈ l, x = z ∨ r x z := by
  intro l
  induction l with
  | nil => intro _ z hz; simp at hz
  | cons a rest ih =>
    intro hp z hz x hx
    rcases List.pairwise_cons.mp hp with ⟨ha, hrest⟩
    cases hr : rest with
    | nil =>
      rw [hr] at hz
      simp only [List.getLast?_singleton, Option.some.injEq] at hz
      rw [hr] at hx
      rcases List.mem_cons.mp hx with h | h
      · exact Or.inl (h.trans hz)
      · exact absurd h (by simp)
    | cons b t =>
      rw [hr] at hz
      rw [List.getLast?_cons_cons] at hz
      have hz' : rest.getLast? = some z := hr ▸ hz
      rcases List.mem_cons.mp hx with h | h
      · exact Or.inr (h ▸ ha z (getLast?_mem' rest z hz'))
      · exact ih hrest z hz' x h

/-! ### Facts about `takeUntil` -/

theorem takeUntil_sublist (thr : ℚ) :
    ∀ (l : List (ℚ × ℚ)) (acc : ℚ), (takeUntil thr l acc).Sublist l := by
  intro l
  induction l with
  | nil => intro acc; rw [takeUntil]
  | cons kv rest ih =>
    intro acc
    rw [takeUntil]
    split
    · exact List.Sublist.cons₂ kv (List.nil_sublist rest)
    · exact List.Sublist.cons₂ kv (ih _)

theorem takeUntil_cons_head (thr : ℚ) (kv : ℚ × ℚ) (rest : List (ℚ × ℚ)) (acc : ℚ) :
    ∃ t, takeUntil thr (kv :: rest) acc = kv :: t := by
  rw [takeUntil]
  split
  · exact ⟨[], rfl⟩
  · exact ⟨_, rfl⟩

theorem takeUntil_reaches (thr : ℚ) :
    ∀ (l : List (ℚ × ℚ)) (acc : ℚ), (∀ kv ∈ l, 0 ≤ kv.2) →
      thr ≤ acc + (l.map Prod.snd).sum →
      thr ≤ acc + ((takeUntil thr l acc).map Prod.snd).sum := by
  intro l
  induction l with
  | nil => intro acc _ h; rw [takeUntil]; simpa using h
  | cons kv rest ih =>
    intro acc hnn h
    have hq : qadd acc kv.2 = acc + kv.2 := qadd_eq _ _
    rw [takeUntil]
    split
    · next hbr =>
      rw [hq] at hbr
      simpa using hbr
    · next hbr =>
      rw [hq] at hbr
      simp only [List.map_cons, List.sum_cons] at h ⊢
      have h2 := ih (qadd acc kv.2) (fun x hx => hnn x (List.mem_cons_of_mem _ hx))
        (by rw [hq]; linarith)
      linarith [h2, hq]

theorem takeUntil_minimal (thr : ℚ) :
    ∀ (l : List (ℚ × ℚ)) (acc : ℚ), acc < thr →
      ∀ z, (takeUntil thr l acc).getLast? = some z →
        acc + ((takeUntil thr l acc).map Prod.snd).sum - z.2 < thr := by
  intro l
  induction l with
  | nil =>
    intro acc _ z hz
    rw [takeUntil] at hz
    simp at hz
  | cons kv rest ih =>
    intro acc hacc z hz
    have hq : qadd acc kv.2 = acc + kv.2 := qadd_eq _ _
    rw [takeUntil] at hz ⊢
    by_cases hbr : thr ≤ qadd acc kv.2
    · rw [if_pos hbr] at hz ⊢
      simp only [List.getLast?_singleton, Option.some.injEq] at hz
      rw [← hz]
      simp only [List.map_cons, List.map_nil, List.sum_cons, List.sum_nil]
      linarith
    · rw [if_neg hbr] at hz ⊢
      rw [hq] at hbr
      have hacc' : acc + kv.2 < thr := not_le.mp hbr
      cases hs' : takeUntil thr rest (qadd acc kv.2) with
      | nil =>
        rw [hs'] at hz
        simp only [List.getLast?_singleton, Option.some.injEq] at hz
        rw [← hz]
        simp only [List.map_cons, List.map_nil, List.sum_cons, List.sum_nil]
        linarith
      | cons a t =>
        rw [hs'] at hz
        rw [List.getLast?_cons_cons] at hz
        have h2 := ih (qadd acc kv.2) (by rw [hq]; exact hacc') z (by rw [hs']; exact hz)
        rw [hs', hq] at h2
        simp only [List.map_cons, List.sum_cons] at h2 ⊢
        linarith

theorem takeUntil_pairwise (thr : ℚ) (r : ℚ × ℚ → ℚ × ℚ → Prop)
    (l : List (ℚ × ℚ)) (acc : ℚ) (h : List.Pairwise r l) :
    List.Pairwise r (takeUntil thr l acc) :=
  List.Pairwise.sublist (takeUntil_sublist thr l acc) h

theorem takeUntil_mem (thr : ℚ) (l : List (ℚ × ℚ)) (acc : ℚ) :
    ∀ x ∈ takeUntil thr l acc, x ∈ l := fun _ hx =>
  List.Sublist.mem hx (takeUntil_sublist thr l acc)

/-! ### Strictly descending keys of a sorted key-Nodup profile -/

theorem sorted_strict_keys (s : List (ℚ × ℚ)) (hs : List.Sorted keyGE s)
    (hn : (dkeys s).Nodup) {i j : ℕ} (hi : i < s.length) (hj : j < s.length)
    (hij : i < j) : (s.get ⟨j, hj⟩).1 < (s.get ⟨i, hi⟩).1 := by
  have h1 : keyGE (s.get ⟨i, hi⟩) (s.get ⟨j, hj⟩) :=
    List.pairwise_iff_get.mp hs ⟨i, hi⟩ ⟨j, hj⟩ hij
  rcases lt_or_eq_of_le h1 with h | h
  · exact h
  · exfalso
    have hfst : (List.map Prod.fst s).get ⟨j, by simpa using hj⟩ =
        (List.map Prod.fst s).get ⟨i, by simpa using hi⟩ := by
      rw [List.get_map, List.get_map]
      exact h
    have := (List.Nodup.get_inj_iff hn).mp hfst
    simp only [Fin.mk.injEq] at this
    omega

theorem dlookup_nodup {A : Type} (d : List (ℚ × A)) (hn : (dkeys d).Nodup)
    (k : ℚ) (v : A) (h : (k, v) ∈ d) : dlookup d k = some v := by
  induction d with
  | nil => exact absurd h (by simp)
  | cons kv rest ih =>
    have hpair := List.nodup_cons.mp hn
    rw [dlookup]
    rcases List.mem_cons.mp h with h1 | h1
    · rw [if_pos (by rw [← h1])]
      rw [← h1]
    · have hne : kv.1 ≠ k := by
        intro hc
        exact hpair.1 (hc ▸ List.mem_map_of_mem Prod.fst h1)
      rw [if_neg hne]
      exact ih hpair.2 h1

/-! ### Position of the PoC -/

theorem profile_poc_get (s : List (ℚ × ℚ)) (hne : s ≠ []) :
    ∃ hlt : argmaxQ (s.map Prod.snd) < s.length,
      profile_poc s = (s.get ⟨argmaxQ (s.map Prod.snd), hlt⟩).1 := by
  have hlen : argmaxQ (s.map Prod.snd) < s.length := by
    have := argmaxQ_lt_length (s.map Prod.snd) (by simpa using hne)
    simpa using this
  refine ⟨hlen, ?_⟩
  rw [profile_poc, List.getD_eq_getElem _ _ (by simpa using hlen), List.getElem_map]
  rfl

theorem argmax_mass_get (s : List (ℚ × ℚ)) (hne : s ≠ [])
    (hlt : argmaxQ (s.map Prod.snd) < s.length) :
    (s.map Prod.snd).getD (argmaxQ (s.map Prod.snd)) 0 =
      (s.get ⟨argmaxQ (s.map Prod.snd), hlt⟩).2 := by
  rw [List.getD_eq_getElem _ _ (by simpa using hlt), List.getElem_map]
  rfl

/-! ### The Value Area iteration order -/

theorem selOrder_pairwise (s : List (ℚ × ℚ)) (hs : List.Sorted keyGE s)
    (hn : (dkeys s).Nodup) :
    List.Pairwise (fun a b : ℚ × ℚ => b.2 < a.2 ∨ (a.2 = b.2 ∧ a.1 < b.1))
      (selOrder s) := by
  have hL : List.Sorted massIdxLE (List.insertionSort massIdxLE s.enum) :=
    List.sorted_insertionSort _ _
  have hRev : List.Pairwise (fun a b => massIdxLE b a)
      (List.insertionSort massIdxLE s.enum).reverse :=
    List.pairwise_reverse.mpr hL
  have hperm : (List.insertionSort massIdxLE s.enum).reverse.Perm s.enum :=
    (List.reverse_perm _).trans (List.perm_insertionSort _ _)
  have hnd : ((List.insertionSort massIdxLE s.enum).reverse.map Prod.fst).Nodup := by
    refine (hperm.map Prod.fst).nodup_iff.mpr ?_
    rw [List.enum_map_fst]
    exact List.nodup_range _
  have hNe : List.Pairwise (fun a b : ℕ × (ℚ × ℚ) => a.1 ≠ b.1)
      (List.insertionSort massIdxLE s.enum).reverse := List.pairwise_map.mp hnd
  have hand := hRev.and hNe
  have hMemFact : ∀ x ∈ (List.insertionSort massIdxLE s.enum).reverse,
      ∃ hlt : x.1 < s.length, x.2 = s.get ⟨x.1, hlt⟩ := by
    intro x hx
    have hxe : x ∈ s.enum := hperm.subset hx
    have hsome := List.mem_enum_iff_getElem?.mp hxe
    obtain ⟨hlt, hval⟩ := List.getElem?_eq_some_iff.mp hsome
    exact ⟨hlt, by rw [List.get_eq_getElem, hval]⟩
  have hPW : List.Pairwise (fun a b : ℕ × (ℚ × ℚ) =>
      b.2.2 < a.2.2 ∨ (a.2.2 = b.2.2 ∧ a.2.1 < b.2.1))
      (List.insertionSort massIdxLE s.enum).reverse := by
    refine List.Pairwise.imp_of_mem (fun {a b} ha hb hab => ?_) hand
    obtain ⟨hmle, hne⟩ := hab
    rcases hmle with h1 | ⟨h1, h1i⟩
    · exact Or.inl h1
    · have hlt : b.1 < a.1 := lt_of_le_of_ne h1i (fun hc => hne hc.symm)
      obtain ⟨hla, hva⟩ := hMemFact a ha
      obtain ⟨hlb, hvb⟩ := hMemFact b hb
      refine Or.inr ⟨h1.symm, ?_⟩
      rw [hva, hvb]
      exact sorted_strict_keys s hs hn hlb hla hlt
  rw [selOrder]
  exact List.pairwise_map.mpr hPW

theorem selOrder_perm (s : List (ℚ × ℚ)) : (selOrder s).Perm s := by
  rw [selOrder]
  have hperm : (List.insertionSort massIdxLE s.enum).reverse.Perm s.enum :=
    (List.reverse_perm _).trans (List.perm_insertionSort _ _)
  have := hperm.map Prod.snd
  refine this.trans ?_
  rw [List.enum_map_snd]

theorem selOrder_head_key (s : List (ℚ × ℚ)) (hne : s ≠ [])
    (huniq : ∀ kv ∈ s, kv.1 ≠ profile_poc s →
      kv.2 < (s.map Prod.snd).getD (argmaxQ (s.map Prod.snd)) 0) :
    ∃ h0, (selOrder s).head? = some h0 ∧ h0.1 = profile_poc s := by
  obtain ⟨hlen, hpoc⟩ := profile_poc_get s hne
  set ix := argmaxQ (s.map Prod.snd) with hix
  set m := (s.map Prod.snd).getD ix 0 with hm
  have hmget : m = (s.get ⟨ix, hlen⟩).2 := argmax_mass_get s hne hlen
  -- the sorted enum list is non-empty
  have hLne : List.insertionSort massIdxLE s.enum ≠ [] := by
    intro hc
    have h1 := (List.perm_insertionSort massIdxLE s.enum).length_eq
    rw [hc] at h1
    simp only [List.length_nil, List.enum_length] at h1
    exact hne (List.length_eq_zero.mp h1.symm)
  obtain ⟨z, hz⟩ : ∃ z, (List.insertionSort massIdxLE s.enum).getLast? = some z := by
    cases hL : (List.insertionSort massIdxLE s.enum).getLast? with
    | none => exact absurd (List.getLast?_eq_none_iff.mp hL) hLne
    | some z => exact ⟨z, rfl⟩
  have hhead : (selOrder s).head? = some z.2 := by
    rw [selOrder, List.head?_map, List.head?_reverse, hz]
    rfl
  refine ⟨z.2, hhead, ?_⟩
  -- z is massIdxLE-maximal among the enum entries
  have hzmem : z ∈ s.enum :=
    (List.perm_insertionSort massIdxLE s.enum).subset
      (getLast?_mem' _ z hz)
  obtain ⟨hzlt, hzval⟩ := List.getElem?_eq_some_iff.mp
    (List.mem_enum_iff_getElem?.mp hzmem)
  have hz2mem : z.2 ∈ s := by
    rw [← hzval]
    exact List.getElem_mem hzlt
  have hz2le : z.2.2 ≤ m := by
    rw [hm]
    exact argmaxQ_max (s.map Prod.snd) z.2.2 (List.mem_map_of_mem Prod.snd hz2mem)
  have hemem : (ix, s.get ⟨ix, hlen⟩) ∈ s.enum := by
    rw [List.mem_enum_iff_getElem?]
    exact List.getElem?_eq_getElem hlen
  have heL : (ix, s.get ⟨ix, hlen⟩) ∈ List.insertionSort massIdxLE s.enum :=
    (List.perm_insertionSort massIdxLE s.enum).mem_iff.mpr hemem
  have hrel := pairwise_getLast_rel massIdxLE _
    (List.sorted_insertionSort massIdxLE s.enum) z hz _ heL
  rcases hrel with h | h
  · -- the last element is exactly the argmax entry
    have : z.2 = s.get ⟨ix, hlen⟩ := by rw [← h]
    rw [this, hpoc]
  · -- massIdxLE (ix, s.get ix) z
    rcases h with h1 | ⟨h1, _⟩
    · exfalso
      have : m < z.2.2 := by
        rw [hmget]
        exact h1
      linarith [hz2le]
    · -- mass tie: z.2 has maximal mass, so its key must be the PoC
      have hzm : z.2.2 = m := by
        rw [hmget]
        exact h1.symm
      by_contra hc
      have hlt2 := huniq z.2 hz2mem hc
      rw [hzm] at hlt2
      exact lt_irrefl m hlt2

/-! ### Claim C7: the regime classification thresholds -/

theorem classify_eq (h : ℚ) :
    classify h = if h < 49/100 then some Regime.MeanReverting
      else if 49/100 ≤ h ∧ h ≤ 51/100 then some Regime.RandomWalk
      else if 51/100 < h then some Regime.Trending
      else none := by
  rw [classify]
  norm_num [qdiv_eq]

theorem classify_total (h : ℚ) : ∃ r, classify h = some r := by
  rw [classify_eq]
  by_cases h1 : h < 49/100
  · exact ⟨_, if_pos h1⟩
  · rw [if_neg h1]
    by_cases h2 : 49/100 ≤ h ∧ h ≤ 51/100
    · exact ⟨_, if_pos h2⟩
    · rw [if_neg h2]
      have h3 : 51/100 < h := by
        push_neg at h1 h2
        exact h2 h1
      exact ⟨_, if_pos h3⟩

/-- C7: for every rational Hurst value, `analyze_trends`' classification chain
maps `h < 0.49` to Mean-Reverting, `0.49 ≤ h ≤ 0.51` to Random Walk and
`h > 0.51` to Trending; in particular both boundary values 0.49 and 0.51
classify as Random Walk. -/
theorem C7_classification_thresholds :
    ∀ h : ℚ, (h < 49/100 → classify h = some Regime.MeanReverting) ∧
      (49/100 ≤ h → h ≤ 51/100 → classify h = some Regime.RandomWalk) ∧
      (51/100 < h → classify h = some Regime.Trending) ∧
      classify (49/100) = some Regime.RandomWalk ∧
      classify (51/100) = some Regime.RandomWalk := by
  intro h
  refine ⟨?_, ?_, ?_, ?_, ?_⟩
  · intro h1
    rw [classify_eq, if_pos h1]
  · intro h1 h2
    rw [classify_eq, if_neg (by linarith), if_pos ⟨h1, h2⟩]
  · intro h1
    rw [classify_eq, if_neg (by linarith), if_neg (by
      rintro ⟨_, hc⟩
      linarith), if_pos h1]
  · rw [classify_eq]
    norm_num
  · rw [classify_eq]
    norm_num

/-- Witness for C7 at the concrete Hurst value 1/2. -/
theorem C7_witness : classify (1/2) = some Regime.RandomWalk :=
  (C7_classification_thresholds (1/2)).2.1 (by norm_num) (by norm_num)

/-! ### Claim C10: tally consistency of `analyze_trends` -/

theorem stepDate_cases (core : List ℚ → Option ℚ) (df : List ((ℕ × ℕ) × ℚ))
    (st : RegimeState) (d : ℕ) :
    stepDate core df st d = st ∨
      (¬ (dailyCloses df d).length < 100 ∧
        ∃ h, (stepDate core df st d).records = st.records ++ [(d, h)] ∧
          (stepDate core df st d).mr + (stepDate core df st d).rw +
            (stepDate core df st d).tr = st.mr + st.rw + st.tr + 1) := by
  rw [stepDate]
  by_cases he : (dailyCloses df d).isEmpty
  · rw [if_pos he]
    exact Or.inl rfl
  · rw [if_neg he]
    rw [hurst_exponent]
    by_cases hlen : (dailyCloses df d).length < 100
    · rw [if_pos hlen]
      exact Or.inl rfl
    · rw [if_neg hlen]
      cases hc : core (dailyCloses df d) with
      | none => exact Or.inl rfl
      | some h =>
        refine Or.inr ⟨hlen, h, ?_⟩
        obtain ⟨r, hr⟩ := classify_total h
        dsimp only
        rw [hr]
        cases r <;> exact ⟨rfl, by dsimp only; omega⟩

theorem analyze_fold_inv (core : List ℚ → Option ℚ) (df : List ((ℕ × ℕ) × ℚ))
    (dates : List ℕ) :
    ∀ st : RegimeState,
      (st.mr + st.rw + st.tr = st.records.length) →
      (∀ d, (dailyCloses df d).length < 100 → d ∉ st.records.map Prod.fst) →
      ((dates.foldl (stepDate core df) st).mr +
          (dates.foldl (stepDate core df) st).rw +
          (dates.foldl (stepDate core df) st).tr
        = (dates.foldl (stepDate core df) st).records.length) ∧
      (∀ d, (dailyCloses df d).length < 100 →
        d ∉ (dates.foldl (stepDate core df) st).records.map Prod.fst) := by
  induction dates with
  | nil => intro st h1 h2; exact ⟨h1, h2⟩
  | cons d0 rest ih =>
    intro st h1 h2
    rw [List.foldl_cons]
    rcases stepDate_cases core df st d0 with h | ⟨hlen, hv, hrec, hsum⟩
    · rw [h]
      exact ih st h1 h2
    · refine ih _ ?_ ?_
      · rw [hrec, hsum, h1]
        simp
      · intro d hd
        rw [hrec]
        simp only [List.map_append, List.mem_append]
        rintro (hmem | hmem)
        · exact h2 d hd hmem
        · simp only [List.map_cons, List.map_nil, List.mem_singleton] at hmem
          rw [hmem] at hd
          exact hlen hd

/-- C10: after `analyze_trends`, the three regime tallies sum to the number of
dates recorded in `hurst_values_by_date`: every processed day with a defined
Hurst value increments exactly one tally and adds exactly one record, and a
day whose closing-price sub-series is empty or shorter than `max_lag` is
absent from the record.  The statement holds for every instantiation of the
abstracted numerical Hurst computation `core`. -/
theorem C10_tally_consistency (core : List ℚ → Option ℚ)
    (df : List ((ℕ × ℕ) × ℚ)) (d : ℕ) :
    ((analyze_trends core df).mr + (analyze_trends core df).rw +
        (analyze_trends core df).tr = (analyze_trends core df).records.length) ∧
      ((dailyCloses df d).length < 100 →
        d ∉ (analyze_trends core df).records.map Prod.fst) := by
  have h := analyze_fold_inv core df (unique_dates df) ⟨0, 0, 0, []⟩ (by simp)
    (by intro d hd; simp)
  rw [analyze_trends]
  exact ⟨h.1, h.2 d⟩

/-- Witness for C10 on a concrete two-day frame whose second day has a single
(too short) closing series. -/
theorem C10_witness :
    ((analyze_trends (fun _ => some (1/2)) [((0, 0), 5), ((1, 0), 6)]).mr +
        (analyze_trends (fun _ => some (1/2)) [((0, 0), 5), ((1, 0), 6)]).rw +
        (analyze_trends (fun _ => some (1/2)) [((0, 0), 5), ((1, 0), 6)]).tr
      = (analyze_trends (fun _ => some (1/2))
          [((0, 0), 5), ((1, 0), 6)]).records.length) ∧
      (1 ∉ (analyze_trends (fun _ => some (1/2))
        [((0, 0), 5), ((1, 0), 6)]).records.map Prod.fst) := by
  have h := C10_tally_consistency (fun _ => some (1/2)) [((0, 0), 5), ((1, 0), 6)] 1
  exact ⟨h.1, h.2 (by decide)⟩

/-! ### Claim C4: the re-bucketing step -/

theorem multiplier_accepted {g : ℚ} {mz : ℤ} (hmpos : 0 < mz) (hgm : g = 1/(mz : ℚ)) :
    multiplier g = mz := by
  rw [multiplier, floorQ_eq, qdiv_eq, qofNat_eq, hgm]
  push_cast
  rw [one_div_one_div]
  exact_mod_cast Int.floor_intCast mz

theorem bucketOf_accepted {g : ℚ} (hg : g ∈ acceptedGranularities) (p : ℚ) :
    ∃ mz : ℤ, 0 < mz ∧ g = 1/(mz : ℚ) ∧
      bucketOf g p = ((⌊p * mz⌋ : ℤ) : ℚ) / (mz : ℚ) := by
  obtain ⟨mz, hmpos, hgm, hmdvd⟩ := accepted_inv hg
  refine ⟨mz, hmpos, hgm, ?_⟩
  have hmne : ((mz : ℤ) : ℚ) ≠ 0 := by
    exact_mod_cast (ne_of_gt hmpos)
  rw [bucketOf, multiplier_accepted hmpos hgm, qdiv_eq, qofInt_eq, qofInt_eq,
    qmul_eq, floorQ_eq]
  refine round3_of_milli ?_
  obtain ⟨c, hc⟩ := hmdvd
  refine ⟨⌊p * mz⌋ * c, ?_⟩
  have h1000 : (1000 : ℚ) = (mz : ℚ) * (c : ℚ) := by
    exact_mod_cast congrArg (fun z : ℤ => (z : ℚ)) hc
  rw [h1000]
  push_cast
  field_simp
  ring

/-- C4: for every accepted granularity the re-bucketing step maps each
fine-table key to the greatest multiple of the granularity not exceeding it
(`round(math.floor(price * multiplier) / multiplier, 3)` equals
`g * ⌊p / g⌋` exactly); consequently every key of the aggregated dictionary
is an exact integer multiple of the granularity and originates from a fine
key, and the aggregated masses sum to the fine-table masses. -/
theorem C4_rebucketing (g : ℚ) (hg : g ∈ acceptedGranularities) :
    (∀ p : ℚ, bucketOf g p = g * ⌊p / g⌋ ∧ ∃ n : ℤ, bucketOf g p = (n : ℚ) * g) ∧
      (∀ d : List (ℚ × ℚ),
        ((aggregate d g).map Prod.snd).sum = (d.map Prod.snd).sum) ∧
      (∀ d : List (ℚ × ℚ), ∀ k ∈ dkeys (aggregate d g),
        ∃ p ∈ dkeys d, k = bucketOf g p) := by
  refine ⟨?_, fun d => sum_aggregate d g, fun d => aggregate_keys d g⟩
  intro p
  obtain ⟨mz, hmpos, hgm, hb⟩ := bucketOf_accepted hg p
  have hmne : ((mz : ℤ) : ℚ) ≠ 0 := by exact_mod_cast (ne_of_gt hmpos)
  constructor
  · rw [hb, hgm, one_div, div_eq_mul_inv p ((mz : ℚ))⁻¹, inv_inv]
    field_simp
  · exact ⟨⌊p * mz⌋, by rw [hb, hgm, mul_one_div]⟩

/-- Witness for C4 at granularity 0.01 with a one-entry fine table. -/
theorem C4_witness :
    (bucketOf (qdiv 1 100) (mkRat 10007 1000) =
        (qdiv 1 100) * ⌊(mkRat 10007 1000) / (qdiv 1 100)⌋) ∧
      ((aggregate [(mkRat 10007 1000, 3)] (qdiv 1 100)).map Prod.snd).sum =
        (([(mkRat 10007 1000, 3)] : List (ℚ × ℚ)).map Prod.snd).sum :=
  ⟨((C4_rebucketing (qdiv 1 100) (by decide)).1 (mkRat 10007 1000)).1,
    (C4_rebucketing (qdiv 1 100) (by decide)).2.1 [(mkRat 10007 1000, 3)]⟩

/-! ### Claim C9: granularity validation of the letter profiles -/

theorem dkeys_appendAll (d : List (ℚ × List String)) (l : List ℚ) (s : String) :
    dkeys (appendAll d l s) = dkeys d := by
  induction l generalizing d with
  | nil => rfl
  | cons q rest ih =>
    rw [appendAll, List.foldl_cons, ← appendAll, ih, dkeys_updFirst]

theorem dkeys_letter_fold (g : ℚ) (bls : List (Bar × String)) :
    ∀ acc : List (ℚ × List String),
      dkeys (bls.foldl (applyBarLetter g) acc) = dkeys acc := by
  induction bls with
  | nil => intro acc; rfl
  | cons bl rest ih =>
    intro acc
    rw [List.foldl_cons, ih, applyBarLetter, dkeys_appendAll]

theorem letter_fine_table_length (bars : List Bar) (g : ℚ) :
    (letter_fine_table bars g).length =
      (arange (min_price bars) (max_price bars) g).length := by
  have h := dkeys_letter_fold g (bars.zip (generate_letter_list bars.length))
    (letter_dict_init bars g)
  have h1 := congrArg List.length h
  simp only [dkeys, List.length_map] at h1
  rw [letter_fine_table, h1, letter_dict_init, List.length_map]

/-- A concrete bar used by several concrete instantiations below. -/
def cexBar9 : Bar := ⟨mkRat 10 1, mkRat 10004 1000, mkRat 10 1, mkRat 10004 1000, 0⟩

/-- C9 counterexample: the scripts-module letter profile
`market_profile_with_letters` rejects the strictly positive granularity 0.003
(it is outside the accepted set), so the letter profile does not accept every
positive granularity. -/
theorem C9_counterexample :
    market_profile_with_letters [cexBar9] (qdiv 3 1000) = none ∧
      (0 : ℚ) < qdiv 3 1000 := ⟨by decide, by decide⟩

/-- C9 amended: only the Classes-module letters variant
(`market_profile_and_visualize_letters`) accepts every strictly positive
granularity (succeeding whenever the price ladder is non-empty); the
scripts-module `market_profile_with_letters` additionally requires membership
in the accepted set, returning the profile exactly for accepted granularities
and raising `ValueError` otherwise. -/
theorem C9_amended :
    (∀ (bars : List Bar) (g : ℚ), 0 < g → min_price bars < max_price bars →
      ∃ r, market_profile_and_visualize_letters bars g = some r) ∧
      (∀ (bars : List Bar) (g : ℚ), g ∉ acceptedGranularities →
        market_profile_with_letters bars g = none) ∧
      (∀ (bars : List Bar) (g : ℚ), g ∈ acceptedGranularities →
        ∃ r, market_profile_with_letters bars g = some r) := by
  refine ⟨?_, ?_, ?_⟩
  · intro bars g hpos hlad
    rw [market_profile_and_visualize_letters, if_pos hpos]
    have hlen : 0 < (sorted_letter_counts bars g).length := by
      rw [sorted_letter_counts]
      have h1 := (sortDesc_perm
        ((letter_fine_table bars g).map (fun kv => (kv.1, qofNat kv.2.length)))).length_eq
      rw [h1, List.length_map, letter_fine_table_length]
      have h2 := arange_ne_nil hpos hlad
      exact List.length_pos.mpr h2
    rw [if_neg (by
      intro hc
      rw [List.isEmpty_iff] at hc
      rw [hc] at hlen
      simp at hlen)]
    exact ⟨_, rfl⟩
  · intro bars g hg
    rw [market_profile_with_letters, if_neg hg]
  · intro bars g hg
    rw [market_profile_with_letters, if_pos hg]
    exact ⟨_, rfl⟩

/-- Witness for C9 amended: the letters variant succeeds at the non-accepted
positive granularity 0.003, while the scripts variant answers per membership
in the accepted set. -/
theorem C9_witness :
    (∃ r, market_profile_and_visualize_letters [cexBar9] (qdiv 3 1000) = some r) ∧
      market_profile_with_letters [cexBar9] (qdiv 7 1000) = none ∧
      (∃ r, market_profile_with_letters [cexBar9] (qdiv 1 100) = some r) :=
  ⟨C9_amended.1 [cexBar9] (qdiv 3 1000) (by decide) (by decide),
    C9_amended.2.1 [cexBar9] (qdiv 7 1000) (by decide),
    C9_amended.2.2 [cexBar9] (qdiv 1 100) (by decide)⟩

/-! ### Claim C8: the price-structure classifier -/

/-- C8 counterexample: a profile of two numeric-valued buckets each holding 5
units of mass (combined numeric count 10 > 2) is nevertheless classified
"Strong High"/"Strong Low", because `price_structure_analysis` counts every
non-list bucket as 1 rather than as its numeric value. -/
theorem C8_counterexample :
    price_structure_analysis
        [(mkRat 10 1, PVal.num 5), (mkRat 999 100, PVal.num 5)] =
      some ("Strong High", "Strong Low") ∧ (2 : ℚ) < 5 + 5 :=
  ⟨by decide, by norm_num⟩

/-- C8 amended: the classifier takes the two highest-price and two
lowest-price buckets of a (descending-price) profile with at least two
buckets; a letter bucket contributes its list length but a numeric bucket
contributes the constant 1, not its numeric count.  A combined mass above 2
yields "Poor/Weak High" (resp. the code's "Poor Weak Low" spelling), any
other combined mass yields "Strong High"/"Strong Low"; in particular two
lowest buckets of one letter each (combined mass 2) classify Strong Low and
combined mass 3 classifies Poor Weak Low. -/
theorem C8_amended (d : List (ℚ × PVal)) (h2 : 2 ≤ d.length) :
    price_structure_analysis d =
      some
        (if 2 < ((d.take 2).map (fun kv => pvalMass kv.2)).sum then "Poor/Weak High"
          else "Strong High",
         if 2 < ((d.drop (d.length - 2)).map (fun kv => pvalMass kv.2)).sum then
            "Poor Weak Low" else "Strong Low") ∧
      (∀ q : ℚ, pvalMass (PVal.num q) = 1) ∧
      (∀ ls : List String, pvalMass (PVal.letters ls) = ls.length) ∧
      (((d.drop (d.length - 2)).map (fun kv => pvalMass kv.2)).sum = 2 →
        ∃ hl, price_structure_analysis d = some (hl, "Strong Low")) ∧
      (((d.drop (d.length - 2)).map (fun kv => pvalMass kv.2)).sum = 3 →
        ∃ hl, price_structure_analysis d = some (hl, "Poor Weak Low")) := by
  have hmain : price_structure_analysis d =
      some
        (if 2 < ((d.take 2).map (fun kv => pvalMass kv.2)).sum then "Poor/Weak High"
          else "Strong High",
         if 2 < ((d.drop (d.length - 2)).map (fun kv => pvalMass kv.2)).sum then
            "Poor Weak Low" else "Strong Low") := by
    rw [price_structure_analysis, if_neg (by omega)]
  refine ⟨hmain, fun q => rfl, fun ls => rfl, ?_, ?_⟩
  · intro hsum
    refine ⟨if 2 < ((d.take 2).map (fun kv => pvalMass kv.2)).sum then
      "Poor/Weak High" else "Strong High", ?_⟩
    rw [hmain, hsum]
    norm_num
  · intro hsum
    refine ⟨if 2 < ((d.take 2).map (fun kv => pvalMass kv.2)).sum then
      "Poor/Weak High" else "Strong High", ?_⟩
    rw [hmain, hsum]
    norm_num

/-- Witness for C8 at a two-bucket letter profile with one letter per
bucket. -/
theorem C8_witness :
    ∃ hl, price_structure_analysis
      [(mkRat 10 1, PVal.letters ["A"]), (mkRat 999 100, PVal.letters ["A"])] =
        some (hl, "Strong Low") :=
  (C8_amended [(mkRat 10 1, PVal.letters ["A"]), (mkRat 999 100, PVal.letters ["A"])]
    (by decide)).2.2.2.1 (by decide)

/-! ### Claim C2: the counting fine table -/

theorem count_fold_keys (g : ℚ) (bs : List Bar) :
    ∀ acc : List (ℚ × ℚ), dkeys (bs.foldl (applyBarCount g) acc) = dkeys acc := by
  induction bs with
  | nil => intro acc; rfl
  | cons b rest ih =>
    intro acc
    rw [List.foldl_cons, ih, applyBarCount, dkeys_bumpAll]

theorem count_fine_keys (bars : List Bar) (g : ℚ) :
    dkeys (count_fine_table bars g) = dkeys (price_dict_market bars) :=
  count_fold_keys g bars _

theorem price_dict_market_keys (bars : List Bar) :
    dkeys (price_dict_market bars) =
      (arange (min_price bars) (max_price bars) (qdiv 1 1000)).map round3 := by
  rw [price_dict_market, dkeys, List.map_map]
  rfl

theorem price_dict_key_milli (bars : List Bar) (p : ℚ)
    (hp : p ∈ dkeys (price_dict_market bars)) : IsMilli p := by
  rw [price_dict_market_keys] at hp
  obtain ⟨q, _, hq⟩ := List.mem_map.mp hp
  rw [← hq]
  exact round3_milli q

theorem qdiv_milli_pos : (0 : ℚ) < qdiv 1 1000 ∧ IsMilli (qdiv 1 1000) := by
  constructor
  · rw [qdiv_eq]
    norm_num
  · exact ⟨1, by rw [qdiv_eq]; norm_num⟩

theorem map_round3_arange (lo hi step : ℚ) (hlo : IsMilli lo) (hst : IsMilli step)
    (hs : 0 < step) : (arange lo hi step).map round3 = arange lo hi step := by
  have hcongr : ∀ x ∈ arange lo hi step, round3 x = x := by
    intro x hx
    obtain ⟨k, hk, _⟩ := (mem_arange hs x).mp hx
    rw [hk]
    exact round3_of_milli (milli_add hlo (milli_natmul hst k))
  calc (arange lo hi step).map round3 = (arange lo hi step).map id :=
      List.map_congr_left hcongr
    _ = arange lo hi step := List.map_id _

theorem mem_arange_milli (lo hi p : ℚ) (hlo : IsMilli lo) (hp : IsMilli p) :
    p ∈ arange lo hi (qdiv 1 1000) ↔ (lo ≤ p ∧ p < hi) := by
  have hs := qdiv_milli_pos.1
  have hstep : (qdiv 1 1000 : ℚ) = 1/1000 := qdiv_eq 1 1000
  rw [mem_arange hs]
  constructor
  · rintro ⟨k, hk, hlt⟩
    refine ⟨?_, hlt⟩
    rw [hk]
    have h0 : 0 ≤ (k : ℚ) * (qdiv 1 1000) :=
      mul_nonneg (Nat.cast_nonneg k) (le_of_lt hs)
    linarith
  · rintro ⟨hle, hlt⟩
    obtain ⟨zp, hzp⟩ := hp
    obtain ⟨zl, hzl⟩ := hlo
    have hk : zl ≤ zp := by
      have h1 : lo * 1000 ≤ p * 1000 := by nlinarith
      rw [hzp, hzl] at h1
      exact_mod_cast h1
    refine ⟨(zp - zl).toNat, ?_, hlt⟩
    have hcast : (((zp - zl).toNat : ℕ) : ℚ) = (zp : ℚ) - (zl : ℚ) := by
      have := Int.toNat_of_nonneg (by omega : (0:ℤ) ≤ zp - zl)
      have h2 : (((zp - zl).toNat : ℤ) : ℚ) = ((zp - zl : ℤ) : ℚ) := by
        exact_mod_cast congrArg (fun z : ℤ => (z : ℚ)) this
      push_cast at h2 ⊢
      linarith
    rw [hcast, hstep]
    linarith

theorem bar_level_count (b : Bar) (p : ℚ) (hp : IsMilli p) :
    ((arange (round3 b.Low) (round3 b.High) (qdiv 1 1000)).map round3).count p =
      if round3 b.Low ≤ p ∧ p < round3 b.High then 1 else 0 := by
  rw [map_round3_arange _ _ _ (round3_milli _) qdiv_milli_pos.2 qdiv_milli_pos.1]
  rw [arange_count qdiv_milli_pos.1]
  simp only [mem_arange_milli _ _ _ (round3_milli _) hp]

theorem dlookup_some_mem {A : Type} :
    ∀ (d : List (ℚ × A)) (k : ℚ) (v : A), dlookup d k = some v → (k, v) ∈ d := by
  intro d
  induction d with
  | nil => intro k v h; rw [dlookup] at h; exact absurd h (by simp)
  | cons kv rest ih =>
    intro k v h
    rw [dlookup] at h
    split at h
    · next heq =>
      have hv := Option.some.inj h
      have hkv : (k, v) = kv := by
        rw [← heq, ← hv]
      rw [hkv]
      simp
    · exact List.mem_cons_of_mem _ (ih k v h)

theorem price_dict_market_lookup0 (bars : List Bar) (p : ℚ) :
    dlookupD (price_dict_market bars) p = 0 := by
  rw [dlookupD]
  cases hl : dlookup (price_dict_market bars) p with
  | none => rfl
  | some v =>
    have hmem := dlookup_some_mem _ p v hl
    rw [price_dict_market] at hmem
    obtain ⟨q, _, hq⟩ := List.mem_map.mp hmem
    have : v = 0 := (Prod.mk.injEq _ _ _ _ ▸ hq).2.symm
    rw [this]
    rfl

theorem count_fold_lookup (p : ℚ) (hmilli : IsMilli p) (bs : List Bar) :
    ∀ acc : List (ℚ × ℚ), p ∈ dkeys acc →
      dlookupD (bs.foldl (applyBarCount (qdiv 1 1000)) acc) p =
        dlookupD acc p +
          ((bs.filter (fun b =>
            decide (round3 b.Low ≤ p) && decide (p < round3 b.High))).length : ℚ) := by
  induction bs with
  | nil => intro acc _; simp
  | cons b rest ih =>
    intro acc hp
    rw [List.foldl_cons]
    rw [ih _ (by rw [applyBarCount, dkeys_bumpAll]; exact hp)]
    rw [applyBarCount, dlookupD_bumpAll _ _ _ _ hp]
    rw [bar_level_count b p hmilli]
    rw [List.filter_cons]
    by_cases hcond : round3 b.Low ≤ p ∧ p < round3 b.High
    · rw [if_pos hcond]
      rw [if_pos (by
        rw [Bool.and_eq_true, decide_eq_true_eq, decide_eq_true_eq]
        exact hcond)]
      simp only [List.length_cons]
      push_cast
      ring
    · rw [if_neg hcond]
      rw [if_neg (by
        rw [Bool.and_eq_true, decide_eq_true_eq, decide_eq_true_eq]
        exact hcond)]
      push_cast
      ring

/-- A concrete bar spanning `[10.000, 10.004]` used in several concrete
instantiations. -/
def cexBar2 : Bar := ⟨mkRat 10 1, mkRat 10004 1000, mkRat 10 1, mkRat 10004 1000, 0⟩

/-- C2 counterexample: at granularity 0.005, the 0.001-level 10.001 lies
strictly inside `[round(Low,3), round(High,3))` of the single bar and is a
key of the 0.001-step occupancy table, yet its count is 0, not the +1 per
covering bar the claim demands — the inner loop steps by the requested
granularity, not by 0.001. -/
theorem C2_counterexample :
    dlookup (count_fine_table [cexBar2] (qdiv 5 1000)) (mkRat 10001 1000) =
        some 0 ∧
      round3 cexBar2.Low ≤ mkRat 10001 1000 ∧
      mkRat 10001 1000 < round3 cexBar2.High ∧
      mkRat 10001 1000 ∈ dkeys (count_fine_table [cexBar2] (qdiv 5 1000)) ∧
      qdiv 5 1000 ∈ acceptedGranularities ∧
      (([cexBar2].filter (fun b =>
        decide (round3 b.Low ≤ mkRat 10001 1000) &&
          decide (mkRat 10001 1000 < round3 b.High))).length : ℚ) = 1 ∧
      (0 : ℚ) ≠ 1 := by
  refine ⟨by decide, by decide, by decide, by decide, by decide, by decide, by norm_num⟩

/-- C2 amended: at granularity 0.001 (and only then) the fine table realises
the claimed semantics — every key of the 0.001-step occupancy table holds
exactly the number of bars whose rounded `[Low, High)` range strictly
contains it. -/
theorem C2_amended (bars : List Bar) (p : ℚ)
    (hp : p ∈ dkeys (count_fine_table bars (qdiv 1 1000))) :
    dlookup (count_fine_table bars (qdiv 1 1000)) p =
      some (((bars.filter (fun b =>
        decide (round3 b.Low ≤ p) && decide (p < round3 b.High))).length : ℚ)) := by
  have hp0 : p ∈ dkeys (price_dict_market bars) := by
    rw [← count_fine_keys bars (qdiv 1 1000)]
    exact hp
  have hmilli : IsMilli p := price_dict_key_milli bars p hp0
  have hD := count_fold_lookup p hmilli bars (price_dict_market bars) hp0
  rw [price_dict_market_lookup0, zero_add] at hD
  have hsome := dlookup_of_mem_dkeys (count_fine_table bars (qdiv 1 1000)) p hp
  have hD2 : dlookupD (count_fine_table bars (qdiv 1 1000)) p =
      ((bars.filter (fun b =>
        decide (round3 b.Low ≤ p) && decide (p < round3 b.High))).length : ℚ) := hD
  rw [hsome, hD2]

/-- Witness for C2 amended on the concrete single-bar table at level
10.001. -/
theorem C2_witness :
    dlookup (count_fine_table [cexBar2] (qdiv 1 1000)) (mkRat 10001 1000) =
      some ((([cexBar2].filter (fun b =>
        decide (round3 b.Low ≤ mkRat 10001 1000) &&
          decide (mkRat 10001 1000 < round3 b.High))).length : ℚ)) :=
  C2_amended [cexBar2] (mkRat 10001 1000) (by decide)

/-! ### Claim C5: PoC is the first maximum in descending-price order -/

theorem map_snd_getD (s : List (ℚ × ℚ)) (j : ℕ) (hj : j < s.length) :
    (s.map Prod.snd).getD j 0 = (s.get ⟨j, hj⟩).2 := by
  rw [List.getD_eq_getElem _ _ (by simpa using hj), List.getElem_map]
  rfl

theorem poc_max_spec (s : List (ℚ × ℚ)) (hne : s ≠ []) (hs : List.Sorted keyGE s)
    (hn : (dkeys s).Nodup) :
    ∃ m, dlookup s (profile_poc s) = some m ∧
      ∀ kv ∈ s, kv.2 ≤ m ∧ (kv.2 = m → kv.1 ≤ profile_poc s) := by
  obtain ⟨hlt, hpoc⟩ := profile_poc_get s hne
  refine ⟨(s.get ⟨argmaxQ (s.map Prod.snd), hlt⟩).2, ?_, ?_⟩
  · refine dlookup_nodup s hn _ _ ?_
    rw [show (profile_poc s, (s.get ⟨argmaxQ (s.map Prod.snd), hlt⟩).2) =
      s.get ⟨argmaxQ (s.map Prod.snd), hlt⟩ from by rw [hpoc]]
    exact List.get_mem s _ hlt
  · intro kv hkv
    obtain ⟨⟨j, hj⟩, hget⟩ := List.mem_iff_get.mp hkv
    constructor
    · have hmax := argmaxQ_max (s.map Prod.snd) kv.2
        (List.mem_map_of_mem Prod.snd hkv)
      rw [map_snd_getD s _ hlt] at hmax
      exact hmax
    · intro hmass
      by_cases hcmp : j < argmaxQ (s.map Prod.snd)
      · exfalso
        have hfirst := argmaxQ_first (s.map Prod.snd) j hcmp
        rw [map_snd_getD s j hj, map_snd_getD s _ hlt] at hfirst
        rw [hget, hmass] at hfirst
        exact lt_irrefl _ hfirst
      · rcases Nat.lt_or_ge (argmaxQ (s.map Prod.snd)) j with hlt2 | hge
        · have hstrict := sorted_strict_keys s hs hn hlt hj hlt2
          rw [hget] at hstrict
          rw [hpoc]
          exact le_of_lt hstrict
        · have hj_eq : j = argmaxQ (s.map Prod.snd) := by omega
          subst hj_eq
          rw [hpoc, ← hget]

/-- C5: in both aggregate profile computations the returned PoC carries the
maximum mass, and any bucket attaining that maximum has a price at most the
PoC — i.e. `np.argmax` over the descending-price profile breaks ties towards
the highest price. -/
theorem C5_poc_tiebreak (bars : List Bar) (g : ℚ) (d : List (ℚ × ℚ))
    (poc vah val : ℚ) :
    (market_profile_and_visualize bars g = some (d, poc, vah, val) →
      ∃ m, dlookup d poc = some m ∧
        ∀ kv ∈ d, kv.2 ≤ m ∧ (kv.2 = m → kv.1 ≤ poc)) ∧
      (volume_profile_and_visualize bars g = some (d, poc, vah, val) →
        ∃ m, dlookup d poc = some m ∧
          ∀ kv ∈ d, kv.2 ≤ m ∧ (kv.2 = m → kv.1 ≤ poc)) := by
  constructor
  · intro h
    obtain ⟨_, hd, hne, hpoc, _, _⟩ := market_profile_inv h
    have hsorted : List.Sorted keyGE d := by
      rw [hd, sorted_profile_count]; exact sortDesc_sorted _
    have hnodup : (dkeys d).Nodup := by
      rw [hd, sorted_profile_count]
      exact sortDesc_nodup_keys _ (aggregate_nodup _ _)
    rw [hpoc]
    exact poc_max_spec d hne hsorted hnodup
  · intro h
    obtain ⟨_, hd, hne, hpoc, _, _⟩ := volume_profile_inv h
    have hsorted : List.Sorted keyGE d := by
      rw [hd, sorted_profile_volume]; exact sortDesc_sorted _
    have hnodup : (dkeys d).Nodup := by
      rw [hd, sorted_profile_volume]
      exact sortDesc_nodup_keys _ (aggregate_nodup _ _)
    rw [hpoc]
    exact poc_max_spec d hne hsorted hnodup

/-- Witness for C5 on the concrete four-level profile of a single bar. -/
theorem C5_witness :
    ∃ m, dlookup [(mkRat 10003 1000, 1), (mkRat 10002 1000, 1),
        (mkRat 10001 1000, 1), (mkRat 10 1, 1)] (mkRat 10003 1000) = some m ∧
      ∀ kv ∈ [(mkRat 10003 1000, (1 : ℚ)), (mkRat 10002 1000, 1),
          (mkRat 10001 1000, 1), (mkRat 10 1, 1)],
        kv.2 ≤ m ∧ (kv.2 = m → kv.1 ≤ mkRat 10003 1000) :=
  (C5_poc_tiebreak [cexBar2] (qdiv 1 1000)
    [(mkRat 10003 1000, 1), (mkRat 10002 1000, 1), (mkRat 10001 1000, 1),
      (mkRat 10 1, 1)]
    (mkRat 10003 1000) (mkRat 10002 1000) (mkRat 10 1)).1 (by decide)

/-! ### Claim C1: VAL ≤ PoC ≤ VAH -/

theorem poc_in_va_of_unique (s : List (ℚ × ℚ)) (hne : s ≠ [])
    (hn : (dkeys s).Nodup) (m : ℚ) (hm : dlookup s (profile_poc s) = some m)
    (huniq : ∀ kv ∈ s, kv.1 ≠ profile_poc s → kv.2 < m) :
    listMin ((va_selected s).map Prod.fst) ≤ profile_poc s ∧
      profile_poc s ≤ listMax ((va_selected s).map Prod.fst) := by
  obtain ⟨hlt, hpoc⟩ := profile_poc_get s hne
  have hm' : m = (s.map Prod.snd).getD (argmaxQ (s.map Prod.snd)) 0 := by
    have hpair : dlookup s (profile_poc s) =
        some ((s.get ⟨argmaxQ (s.map Prod.snd), hlt⟩).2) := by
      refine dlookup_nodup s hn _ _ ?_
      rw [show (profile_poc s, (s.get ⟨argmaxQ (s.map Prod.snd), hlt⟩).2) =
        s.get ⟨argmaxQ (s.map Prod.snd), hlt⟩ from by rw [hpoc]]
      exact List.get_mem s _ hlt
    rw [hm] at hpair
    rw [map_snd_getD s _ hlt]
    exact Option.some.inj hpair
  have huniq' : ∀ kv ∈ s, kv.1 ≠ profile_poc s →
      kv.2 < (s.map Prod.snd).getD (argmaxQ (s.map Prod.snd)) 0 := by
    intro kv hkv hne2
    rw [← hm']
    exact huniq kv hkv hne2
  obtain ⟨h0, hhead, hkey⟩ := selOrder_head_key s hne huniq'
  cases hsel : selOrder s with
  | nil =>
    rw [hsel] at hhead
    exact absurd hhead (by simp)
  | cons a t =>
    rw [hsel] at hhead
    have ha : a = h0 := by simpa using hhead
    have hmem : h0 ∈ va_selected s := by
      rw [va_selected, hsel]
      obtain ⟨t2, ht2⟩ := takeUntil_cons_head (va_threshold s) a t 0
      rw [ht2, ha]
      exact List.mem_cons_self _ _
    constructor
    · rw [← hkey]
      exact listMin_le _ _ (List.mem_map_of_mem Prod.fst hmem)
    · rw [← hkey]
      exact le_listMax _ _ (List.mem_map_of_mem Prod.fst hmem)

/-- A concrete bar spanning `[10.000, 10.003]`. -/
def cexBar6a : Bar := ⟨mkRat 10 1, mkRat 10003 1000, mkRat 10 1, mkRat 10003 1000, 0⟩

/-- A concrete bar spanning `[10.002, 10.003]`. -/
def cexBar6b : Bar :=
  ⟨mkRat 10002 1000, mkRat 10003 1000, mkRat 10002 1000, mkRat 10003 1000, 0⟩

/-- C1 counterexample: a single bar spanning `[10.000, 10.004]` at
granularity 0.001 produces four buckets tying for the maximum mass; the
returned PoC is 10.003 while VAH is 10.002, so `PoC ≤ VAH` fails in the tied
case. -/
theorem C1_counterexample :
    market_profile_and_visualize [cexBar2] (qdiv 1 1000) =
      some ([(mkRat 10003 1000, 1), (mkRat 10002 1000, 1), (mkRat 10001 1000, 1),
          (mkRat 10 1, 1)],
        mkRat 10003 1000, mkRat 10002 1000, mkRat 10 1) ∧
      ¬ (mkRat 10003 1000 ≤ mkRat 10002 1000) :=
  ⟨by decide, by decide⟩

/-- C1 amended: for both aggregate profile computations, `VAL ≤ PoC ≤ VAH`
holds whenever the maximum mass is attained by a unique bucket; when several
buckets tie for the maximum the Value Area loop (which visits tied maxima in
ascending-price order) may stop below the highest-price maximum, and the PoC
can exceed VAH. -/
theorem C1_amended (bars : List Bar) (g : ℚ) (d : List (ℚ × ℚ))
    (poc vah val m : ℚ) :
    (market_profile_and_visualize bars g = some (d, poc, vah, val) →
      dlookup d poc = some m → (∀ kv ∈ d, kv.1 ≠ poc → kv.2 < m) →
      val ≤ poc ∧ poc ≤ vah) ∧
      (volume_profile_and_visualize bars g = some (d, poc, vah, val) →
        dlookup d poc = some m → (∀ kv ∈ d, kv.1 ≠ poc → kv.2 < m) →
        val ≤ poc ∧ poc ≤ vah) := by
  constructor
  · intro h hm huniq
    obtain ⟨_, hd, hne, hpoc, hvah, hval⟩ := market_profile_inv h
    have hnodup : (dkeys d).Nodup := by
      rw [hd, sorted_profile_count]
      exact sortDesc_nodup_keys _ (aggregate_nodup _ _)
    rw [hpoc] at hm huniq
    have hcore := poc_in_va_of_unique d hne hnodup m hm huniq
    rw [hpoc, hvah, hval]
    exact hcore
  · intro h hm huniq
    obtain ⟨_, hd, hne, hpoc, hvah, hval⟩ := volume_profile_inv h
    have hnodup : (dkeys d).Nodup := by
      rw [hd, sorted_profile_volume]
      exact sortDesc_nodup_keys _ (aggregate_nodup _ _)
    rw [hpoc] at hm huniq
    have hcore := poc_in_va_of_unique d hne hnodup m hm huniq
    rw [hpoc, hvah, hval]
    exact hcore

/-- Witness for C1 amended on a three-bucket profile with a unique maximum:
the claim's inequality holds there. -/
theorem C1_witness :
    mkRat 10 1 ≤ mkRat 10002 1000 ∧ mkRat 10002 1000 ≤ mkRat 10002 1000 :=
  (C1_amended [cexBar6a, cexBar6b, cexBar6b] (qdiv 1 1000)
    [(mkRat 10002 1000, 3), (mkRat 10001 1000, 1), (mkRat 10 1, 1)]
    (mkRat 10002 1000) (mkRat 10002 1000) (mkRat 10 1) 3).1
    (by decide) (by decide) (by decide)

/-! ### Claim C6: Value Area accumulation -/

/-- The aggregated profile produced by `[cexBar6a, cexBar6b, cexBar6b]` at
granularity 0.001. -/
def c6dict : List (ℚ × ℚ) :=
  [(mkRat 10002 1000, 3), (mkRat 10001 1000, 1), (mkRat 10 1, 1)]

/-- C6 counterexample: on the profile `[(10.002, 3), (10.001, 1), (10, 1)]`
the code returns VAL = 10, but the spec's stable descending-mass order
(preserving descending-price order among equal masses) selects
`[(10.002, 3), (10.001, 1)]`, whose minimum price is 10.001: the code visits
equal masses in ascending-price order instead. -/
theorem C6_counterexample :
    market_profile_and_visualize [cexBar6a, cexBar6b, cexBar6b] (qdiv 1 1000) =
      some (c6dict, mkRat 10002 1000, mkRat 10002 1000, mkRat 10 1) ∧
      spec_value_area c6dict = [(mkRat 10002 1000, 3), (mkRat 10001 1000, 1)] ∧
      ¬ (mkRat 10 1 = listMin ((spec_value_area c6dict).map Prod.fst)) :=
  ⟨by decide, by decide, by decide⟩

/-- C6 amended: the Value Area loop accumulates buckets in descending-mass
order until the cumulative mass reaches 70% of the total, but visits equal
masses in ascending-price order (not the spec's descending-price order); the
threshold is reached, the last selected bucket has minimal mass among the
selection, removing it drops the cumulative mass below the threshold, and
VAH/VAL are the max/min selected prices. -/
theorem C6_amended (bars : List Bar) (g : ℚ) (d : List (ℚ × ℚ))
    (poc vah val : ℚ)
    (h : market_profile_and_visualize bars g = some (d, poc, vah, val))
    (hpos : 0 < (d.map Prod.snd).sum) :
    va_threshold d = (d.map Prod.snd).sum * (70 / 100) ∧
      List.Pairwise (fun a b : ℚ × ℚ => b.2 < a.2 ∨ (a.2 = b.2 ∧ a.1 < b.1))
        (va_selected d) ∧
      va_threshold d ≤ ((va_selected d).map Prod.snd).sum ∧
      (∀ z, (va_selected d).getLast? = some z →
        (∀ kv ∈ va_selected d, z.2 ≤ kv.2) ∧
        ((va_selected d).map Prod.snd).sum - z.2 < va_threshold d) ∧
      vah = listMax ((va_selected d).map Prod.fst) ∧
      val = listMin ((va_selected d).map Prod.fst) := by
  obtain ⟨_, hd, _, _, hvah, hval⟩ := market_profile_inv h
  have hthr : va_threshold d = (d.map Prod.snd).sum * (70 / 100) := by
    rw [va_threshold, qmul_eq, qsum_eq, qdiv_eq]
  have hsorted : List.Sorted keyGE d := by
    rw [hd, sorted_profile_count]
    exact sortDesc_sorted _
  have hnodup : (dkeys d).Nodup := by
    rw [hd, sorted_profile_count]
    exact sortDesc_nodup_keys _ (aggregate_nodup _ _)
  have hnn : ∀ kv ∈ d, 0 ≤ kv.2 := by
    rw [hd]
    exact sorted_profile_count_nonneg bars g
  have hpw : List.Pairwise (fun a b : ℚ × ℚ => b.2 < a.2 ∨ (a.2 = b.2 ∧ a.1 < b.1))
      (va_selected d) := by
    rw [va_selected]
    exact takeUntil_pairwise _ _ _ _ (selOrder_pairwise d hsorted hnodup)
  have hsum_sel : ((selOrder d).map Prod.snd).sum = (d.map Prod.snd).sum :=
    ((selOrder_perm d).map Prod.snd).sum_eq
  have hthr_lt : 0 < va_threshold d := by
    rw [hthr]
    nlinarith
  have hreach : va_threshold d ≤ ((va_selected d).map Prod.snd).sum := by
    have h1 := takeUntil_reaches (va_threshold d) (selOrder d) 0
      (fun kv hkv => hnn kv ((selOrder_perm d).subset hkv))
      (by rw [zero_add, hsum_sel, hthr]; nlinarith)
    rw [zero_add] at h1
    exact h1
  refine ⟨hthr, hpw, hreach, ?_, hvah, hval⟩
  intro z hz
  constructor
  · intro kv hkv
    rcases pairwise_getLast_rel _ (va_selected d) hpw z hz kv hkv with h1 | h1
    · rw [h1]
    · rcases h1 with h2 | ⟨h2, _⟩
      · exact le_of_lt h2
      · exact le_of_eq h2.symm
  · have h1 := takeUntil_minimal (va_threshold d) (selOrder d) 0 hthr_lt z
      (by rw [← va_selected]; exact hz)
    rw [← va_selected, zero_add] at h1
    exact h1

/-- Witness for C6 amended on the concrete three-bucket profile. -/
theorem C6_witness :
    va_threshold c6dict = (c6dict.map Prod.snd).sum * (70 / 100) ∧
      List.Pairwise (fun a b : ℚ × ℚ => b.2 < a.2 ∨ (a.2 = b.2 ∧ a.1 < b.1))
        (va_selected c6dict) ∧
      va_threshold c6dict ≤ ((va_selected c6dict).map Prod.snd).sum ∧
      (∀ z, (va_selected c6dict).getLast? = some z →
        (∀ kv ∈ va_selected c6dict, z.2 ≤ kv.2) ∧
        ((va_selected c6dict).map Prod.snd).sum - z.2 < va_threshold c6dict) ∧
      mkRat 10002 1000 = listMax ((va_selected c6dict).map Prod.fst) ∧
      mkRat 10 1 = listMin ((va_selected c6dict).map Prod.fst) :=
  C6_amended [cexBar6a, cexBar6b, cexBar6b] (qdiv 1 1000) c6dict
    (mkRat 10002 1000) (mkRat 10002 1000) (mkRat 10 1)
    (by decide)
    (by simp only [c6dict, List.map_cons, List.map_nil, List.sum_cons,
      List.sum_nil]; norm_num)

/-! ### Claim C3: volume conservation -/

theorem volume_fold_sum (g : ℚ) :
    ∀ (bs : List Bar) (d : List (ℚ × ℚ)),
      (∀ b ∈ bs, ∀ q ∈ arange (round3 b.Low) (round3 b.High) g,
        round3 q ∈ dkeys d) →
      ((bs.foldl (applyBarVolume g) d).map Prod.snd).sum =
        (d.map Prod.snd).sum +
          (bs.map (fun b =>
            if (arange (round3 b.Low) (round3 b.High) g).length = 0 then 0
            else b.Volume)).sum := by
  intro bs
  induction bs with
  | nil => intro d _; simp
  | cons b rest ih =>
    intro d hmem
    rw [List.foldl_cons]
    have hkeys : dkeys (applyBarVolume g d b) = dkeys d := by
      simp only [applyBarVolume]
      exact dkeys_bumpAll _ _ _
    have hrest := ih (applyBarVolume g d b) (fun b' hb' q hq => by
      rw [hkeys]
      exact hmem b' (List.mem_cons_of_mem _ hb') q hq)
    rw [hrest]
    have hsum1 := sum_bumpAll (arange (round3 b.Low) (round3 b.High) g) d
      (if (arange (round3 b.Low) (round3 b.High) g).length = 0 then 0
        else qdiv b.Volume (qofNat (arange (round3 b.Low) (round3 b.High) g).length))
      (fun q hq => hmem b (List.mem_cons_self _ _) q hq)
    have happ : ((applyBarVolume g d b).map Prod.snd).sum =
        (d.map Prod.snd).sum +
          ((arange (round3 b.Low) (round3 b.High) g).length : ℚ) *
            (if (arange (round3 b.Low) (round3 b.High) g).length = 0 then 0
              else qdiv b.Volume
                (qofNat (arange (round3 b.Low) (round3 b.High) g).length)) := by
      simp only [applyBarVolume]
      exact hsum1
    rw [happ, List.map_cons, List.sum_cons]
    by_cases hn : (arange (round3 b.Low) (round3 b.High) g).length = 0
    · rw [if_pos hn, if_pos hn]
      ring
    · rw [if_neg hn, if_neg hn, qdiv_eq, qofNat_eq]
      have hne : ((arange (round3 b.Low) (round3 b.High) g).length : ℚ) ≠ 0 :=
        Nat.cast_ne_zero.mpr hn
      field_simp
      ring

theorem volume_levels_in_init (bars : List Bar) (g : ℚ)
    (hg : g ∈ acceptedGranularities)
    (halign : ∀ b ∈ bars, ∃ k : ℕ, round3 b.Low = min_price bars + (k : ℚ) * g) :
    ∀ b ∈ bars, ∀ q ∈ arange (round3 b.Low) (round3 b.High) g,
      round3 q ∈ dkeys (volume_dict_init bars g) := by
  intro b hb q hq
  have hgpos := accepted_pos hg
  have hgm := accepted_milli hg
  obtain ⟨k, hk⟩ := halign b hb
  obtain ⟨j, hj, hjlt⟩ := (mem_arange hgpos q).mp hq
  have hminm : IsMilli (min_price bars) := by
    rw [min_price]
    exact round3_milli _
  have hqm : IsMilli q := by
    rw [hj, hk]
    exact milli_add (milli_add hminm (milli_natmul hgm k)) (milli_natmul hgm j)
  have hdk : dkeys (volume_dict_init bars g) =
      arange (min_price bars) (max_price bars) g := by
    rw [volume_dict_init, dkeys, List.map_map]
    have hco : (Prod.fst ∘ fun p : ℚ => (round3 p, (0 : ℚ))) = round3 := rfl
    rw [hco]
    exact map_round3_arange _ _ _ hminm hgm hgpos
  rw [hdk, round3_of_milli hqm, mem_arange hgpos]
  refine ⟨k + j, ?_, ?_⟩
  · rw [hj, hk]
    push_cast
    ring
  · calc q < round3 b.High := hjlt
      _ ≤ max_price bars := round3_high_le_max_price bars b hb

/-- A volume bar aligned to the 0.005 ladder: `[10.000, 10.010]`, volume 100. -/
def c3b1 : Bar := ⟨mkRat 10 1, mkRat 1001 100, mkRat 10 1, mkRat 1001 100, 100⟩

/-- A volume bar NOT aligned to the 0.005 ladder: `[10.002, 10.012]`,
volume 100. -/
def c3b2 : Bar :=
  ⟨mkRat 10002 1000, mkRat 10012 1000, mkRat 10002 1000, mkRat 10012 1000, 100⟩

/-- C3 counterexample: at granularity 0.005 the bar `[10.002, 10.012]` spans
the fine levels 10.002 and 10.007, which are absent from the price ladder
built from `min_price = 10.000`; its entire volume of 100 is silently
dropped, so the returned total is 100 while the apportioned total is 200. -/
theorem C3_counterexample :
    (volume_profile_and_visualize [c3b1, c3b2] (qdiv 5 1000)).map
        (fun r => qsum (r.1.map Prod.snd)) = some 100 ∧
      spec_apportioned_total [c3b1, c3b2] (qdiv 5 1000) = 200 ∧
      ¬ ((100 : ℚ) = 200) :=
  ⟨by decide, by decide, by decide⟩

/-- C3 amended: volume conservation holds only for aligned bars — when every
bar's rounded Low lies on the price ladder `min_price + k·granularity`, the
total mass of the returned volume profile equals the sum of the per-bar
apportioned contributions (a bar touching zero levels contributing nothing);
an unaligned bar's levels miss the ladder and its volume is silently lost. -/
theorem C3_amended (bars : List Bar) (g : ℚ) (d : List (ℚ × ℚ))
    (poc vah val : ℚ)
    (h : volume_profile_and_visualize bars g = some (d, poc, vah, val))
    (halign : ∀ b ∈ bars, ∃ k : ℕ, round3 b.Low = min_price bars + (k : ℚ) * g) :
    (d.map Prod.snd).sum = spec_apportioned_total bars g := by
  obtain ⟨hg, hd, _, _, _, _⟩ := volume_profile_inv h
  rw [hd, sorted_profile_volume, sortDesc_sum, sum_aggregate, volume_fine_table]
  rw [volume_fold_sum g bars (volume_dict_init bars g)
    (volume_levels_in_init bars g hg halign)]
  have hinit : ((volume_dict_init bars g).map Prod.snd).sum = 0 := by
    rw [volume_dict_init, List.map_map]
    have hco : (Prod.snd ∘ fun p : ℚ => (round3 p, (0 : ℚ))) = fun _ => (0 : ℚ) := rfl
    rw [hco]
    simp
  rw [hinit, zero_add, spec_apportioned_total, qsum_eq]

/-- Witness for C3 amended on a single ladder-aligned bar: total mass 100 is
conserved. -/
theorem C3_witness :
    (([(mkRat 10005 1000, (50 : ℚ)), (mkRat 10 1, 50)]).map Prod.snd).sum =
      spec_apportioned_total [c3b1] (qdiv 5 1000) :=
  C3_amended [c3b1] (qdiv 5 1000) [(mkRat 10005 1000, 50), (mkRat 10 1, 50)]
    (mkRat 10005 1000) (mkRat 10005 1000) (mkRat 10 1)
    (by decide)
    (fun b hb => by
      have hb' : b = c3b1 := by simpa using hb
      subst hb'
      refine ⟨0, ?_⟩
      have h1 : round3 c3b1.Low = mkRat 10 1 := by decide
      have h2 : min_price [c3b1] = mkRat 10 1 := by decide
      rw [h1, h2, Nat.cast_zero, zero_mul, add_zero])

end DataAnalytics
